import Mathlib

/-! HyperLogLog experiment harness (src/main.cpp): shallow embedding

The embedding follows `src/main.cpp` class by class.

* `unsigned int` is a natural number below `2^32`, `size_t` a natural number
  below `2^64`, `int` an integer in `[-2^31, 2^31)`; conversions between them
  are written out (`toUnsigned`, `toInt32`, `toSizeT`).
* An operation whose behaviour the language leaves undefined (a shift by at
  least the width of the word, an out-of-range `operator[]`) or that throws
  (the oversized `std::vector` allocation) yields `none`.
* A `double` is the rational number it denotes. The product
  `stream_size * percent` of `nextPortion` is rounded as IEEE 754 binary64
  arithmetic rounds it (`roundDouble`); the arithmetic of `approx`, `get_alpha`
  and `statsCounter` is taken exactly, and `std::log` is the real logarithm.
* A token (`std::string`) is the list of its `char` values.
* The pseudo-random generators are abstracted: the hash function a sketch
  receives from `HashFuncGen` is a parameter, and the strings drawn by
  `RandomStreamGen::generateOneString` come from an oracle indexed by the
  number of strings drawn so far.
-/

namespace HLL

/-- A token: the `char` values of a `std::string`. -/
abbrev Token := List Int

/-! ## Machine words -/

/-- Conversion `int → unsigned int` (value modulo `2^32`). -/
def toUnsigned (x : Int) : Nat := (x % 2 ^ 32).toNat

/-- Conversion `unsigned int → int` (two's complement). -/
def toInt32 (x : Nat) : Int :=
  if x % 2 ^ 32 < 2 ^ 31 then ((x % 2 ^ 32 : Nat) : Int) else ((x % 2 ^ 32 : Nat) : Int) - 2 ^ 32

/-- Conversion `int → size_t` (value modulo `2^64`). -/
def toSizeT (x : Int) : Nat := (x % 2 ^ 64).toNat

/-- The `size_t` subtraction `a - b`, wrapping modulo `2^64`. -/
def sizeSub (a b : Nat) : Nat := (a % 2 ^ 64 + (2 ^ 64 - b % 2 ^ 64)) % 2 ^ 64

/-- The `size_t` addition `a + b`, wrapping modulo `2^64`. -/
def sizeAdd (a b : Nat) : Nat := (a + b) % 2 ^ 64

/-- The shift `x << n` on `unsigned int`; undefined for `n ≥ 32`. -/
def shl32 (x n : Nat) : Option Nat :=
  if n < 32 then some (x * 2 ^ n % 2 ^ 32) else none

/-- The shift `x >> n` on `unsigned int`; undefined for `n ≥ 32`. -/
def shr32 (x n : Nat) : Option Nat :=
  if n < 32 then some (x / 2 ^ n) else none

/-- The shift `x << n` on a non-negative `int` (C++20: the value congruent to
`x * 2^n` modulo `2^32` in the range of `int`); undefined for `n ≥ 32`. -/
def shlInt (x n : Nat) : Option Int :=
  if n < 32 then some (toInt32 (x * 2 ^ n)) else none

/-- Number of consecutive zero bits of `x` below bit `n`, counted downwards
from bit `n - 1`. -/
def clzFrom : Nat → Nat → Nat
  | 0, _ => 0
  | n + 1, x => if x.testBit n then 0 else clzFrom n x + 1

/-- The function `std::countl_zero` on a 32-bit word: the number of consecutive
zero bits starting from the most significant bit (32 for the word 0). -/
def countl_zero (x : Nat) : Nat := clzFrom 32 x

/-! ## class HashFuncGen -/

/-- The function that `generateNewHashFunc` returns for the captured multiplier
`A`: `hash = hash * A + static_cast<unsigned int>(c)` for each `char` of the
string, in `unsigned int` arithmetic. -/
def hashFunc (A : Nat) (s : Token) : Nat :=
  s.foldl (fun hash c => (hash * A + toUnsigned c) % 2 ^ 32) 0

/-- The method `generateNewHashFunc`, given the value `draw` that `dist(rhg)`
returns: the multiplier is `A = draw | 1`. -/
def generateNewHashFunc (draw : Nat) : Token → Nat :=
  hashFunc ((draw % 2 ^ 32) ||| 1)

/-! ## class HyperLogLog -/

/-- The state of `class HyperLogLog`: `B`, `m`, `subStreams` and the hash
function `h`. -/
structure HyperLogLog where
  B : Nat
  m : Nat
  subStreams : List Int
  h : Token → Nat

namespace HyperLogLog

/-- The constructor `HyperLogLog(size_t b, HashFuncGen &hasher)`; `hasher` is the
function that `hasher.generateNewHashFunc()` returns. `m = 1 << B` is an `int`
shift converted to `size_t`; `std::vector<int>(m, 0)` throws when `m` elements
of four bytes exceed the address space. -/
def new (b : Nat) (hasher : Token → Nat) : Option HyperLogLog :=
  match shlInt 1 b with
  | none => none
  | some v =>
    let m := toSizeT v
    if 4 * m < 2 ^ 64 then
      some { B := b, m := m, subStreams := List.replicate m 0, h := hasher }
    else none

/-- The call `h(str)`: an `unsigned int`. -/
def hashOf (s : HyperLogLog) (str : Token) : Nat := s.h str % 2 ^ 32

/-- The expression `hash >> (32 - B)` (`32 - B` is a `size_t`). -/
def bucket (B hash : Nat) : Option Nat := shr32 hash (sizeSub 32 B)

/-- The expression `std::countl_zero(hash << B) + 1` converted to `unsigned int`. -/
def rank (B hash : Nat) : Option Nat :=
  (shl32 hash B).map fun w => toUnsigned ((countl_zero w : Int) + 1)

/-- One iteration of the loop of `workWithStrings`. -/
def step (s : HyperLogLog) (str : Token) : Option HyperLogLog :=
  let hash := s.hashOf str
  match bucket s.B hash, rank s.B hash with
  | some index, some rank =>
    match s.subStreams[index]? with
    | some cur =>
      if rank > toUnsigned cur then
        some { s with subStreams := s.subStreams.set index (toInt32 rank) }
      else some s
    | none => none
  | _, _ => none

/-- The method `workWithStrings`. -/
def workWithStrings (s : HyperLogLog) : List Token → Option HyperLogLog
  | [] => some s
  | str :: rest =>
    match s.step str with
    | some s1 => workWithStrings s1 rest
    | none => none

/-- A sequence of `workWithStrings` calls, one per batch. -/
def updates (s : HyperLogLog) : List (List Token) → Option HyperLogLog
  | [] => some s
  | batch :: rest =>
    match s.workWithStrings batch with
    | some s1 => updates s1 rest
    | none => none

/-- Register `i` (0 outside the array). -/
def register (s : HyperLogLog) (i : Nat) : Int := s.subStreams.getD i 0

/-- The states on which `workWithStrings` has defined behaviour: both shifts are
by less than 32, every bucket index is inside `subStreams`, and every register
is a value of `int`. -/
def Valid (s : HyperLogLog) : Prop :=
  1 ≤ s.B ∧ s.B ≤ 31 ∧ 2 ^ s.B ≤ s.subStreams.length ∧
    ∀ r ∈ s.subStreams, -2 ^ 31 ≤ r ∧ r < 2 ^ 31

instance (s : HyperLogLog) : Decidable s.Valid := by
  unfold Valid; infer_instance

/-- The method `get_alpha` (the `double` literals taken exactly). -/
def get_alpha (m_val : Nat) : ℚ :=
  if m_val = 2 then 0.3512
  else if m_val = 4 then 0.5324
  else if m_val = 8 then 0.6355
  else if m_val = 16 then 0.673
  else if m_val = 32 then 0.697
  else if m_val = 64 then 0.709
  else if m_val ≥ 128 then 0.7213 / (1.0 + 1.079 / m_val)
  else 0.673

/-- The first loop of `approx`: `sum` of `pow(2.0, -subStreams[i])` for
`i < m`. -/
def harmonicSum (s : HyperLogLog) : ℚ :=
  ((s.subStreams.take s.m).map fun r => (2 : ℚ) ^ (-r)).sum

/-- The value `get_alpha(m) * m * m / sum` of `approx`. -/
def rawEstimate (s : HyperLogLog) : ℚ :=
  get_alpha s.m * s.m * s.m / s.harmonicSum

/-- The second loop of `approx`: `v`, the number of registers equal to 0. -/
def zeroCount (s : HyperLogLog) : Nat := s.subStreams.count 0

/-- The method `approx`. The first loop reads `subStreams[i]` for `i < m` with
an `int` counter, so its behaviour is defined when `m ≤ subStreams.size()` and
`m < 2^31`. -/
noncomputable def approx (s : HyperLogLog) : Option ℝ :=
  if s.m ≤ s.subStreams.length ∧ s.m < 2 ^ 31 then
    let res : ℝ := s.rawEstimate
    if s.rawEstimate < 2.5 * s.m then
      let v := s.zeroCount
      if v = 0 then some res
      else some ((s.m : ℝ) * Real.log ((s.m : ℝ) / (v : ℝ)))
    else some res
  else none

/-! ### Total counterparts used in the proofs -/

/-- The value of `hash >> (32 - B)` when the shift is defined. -/
def bucketIdx (B hash : Nat) : Nat := hash / 2 ^ (32 - B)

/-- The value of `std::countl_zero(hash << B) + 1` when the shift is defined. -/
def rankVal (B hash : Nat) : Nat := countl_zero (hash * 2 ^ B % 2 ^ 32) + 1

/-- The state that `step` returns on a valid state. -/
def stepFn (s : HyperLogLog) (str : Token) : HyperLogLog :=
  if rankVal s.B (s.hashOf str) > toUnsigned (s.register (bucketIdx s.B (s.hashOf str))) then
    { s with
      subStreams :=
        s.subStreams.set (bucketIdx s.B (s.hashOf str)) (toInt32 (rankVal s.B (s.hashOf str))) }
  else s

/-- Every register is non-negative. -/
def NonNeg (s : HyperLogLog) : Prop := ∀ i, 0 ≤ s.register i

/-- Reference value of register `i` after the tokens `tokens` were fed to a
fresh sketch of precision `B` with hash function `H`: the maximum of
`rank(H(t))` over the tokens `t` with `bucket(H(t)) = i`, and 0 when there is
none. -/
def maxRank (B : Nat) (H : Token → Nat) (tokens : List Token) (i : Nat) : Nat :=
  ((tokens.filter fun t => bucketIdx B (H t % 2 ^ 32) = i).map
    fun t => rankVal B (H t % 2 ^ 32)).foldr max 0

end HyperLogLog

/-! ## class ExactCounter -/

/-- The state of `class ExactCounter`: the elements of `unique_elements`, each
once. -/
structure ExactCounter where
  unique_elements : List Token

namespace ExactCounter

/-- A counter with no elements. -/
def empty : ExactCounter := ⟨[]⟩

/-- The call `unique_elements.insert(str)`: no effect when `str` is present. -/
def insert (c : ExactCounter) (str : Token) : ExactCounter :=
  if str ∈ c.unique_elements then c else ⟨str :: c.unique_elements⟩

/-- The method `add`. -/
def add (c : ExactCounter) (portion : List Token) : ExactCounter :=
  portion.foldl insert c

/-- The method `get`. -/
def get (c : ExactCounter) : Nat := c.unique_elements.length

/-- The method `clear`. -/
def clear (_c : ExactCounter) : ExactCounter := ⟨[]⟩

/-- A sequence of `add` calls, one per batch. -/
def addAll (c : ExactCounter) (batches : List (List Token)) : ExactCounter :=
  batches.foldl add c

end ExactCounter

/-! ## Arithmetic of double -/

/-- Rounding of a rational to the nearest integer, ties to the even one. -/
def roundHalfEven (q : ℚ) : ℤ :=
  if q - ⌊q⌋ < 1 / 2 then ⌊q⌋
  else if 1 / 2 < q - ⌊q⌋ then ⌊q⌋ + 1
  else if ⌊q⌋ % 2 = 0 then ⌊q⌋ else ⌊q⌋ + 1

/-- The exponent of the unit in the last place of the `double` nearest to `x`:
53 significant bits, and never below the least exponent `-1074`. -/
def ulpExp (x : ℚ) : ℤ := max (Int.log 2 |x| - 52) (-1074)

/-- The value of a real number as a `double` (IEEE 754 binary64, round to
nearest, ties to even). Overflow is left out: the result is only used where it
is below `2^64`. -/
def roundDouble (x : ℚ) : ℚ := (roundHalfEven (x / 2 ^ ulpExp x) : ℚ) * 2 ^ ulpExp x

/-- The conversion `static_cast<size_t>(x)` of a `double`: the value is
truncated towards zero (to 0 for a value in `(-1, 0)`), and the conversion is
undefined when the truncated value is not a `size_t`. -/
def castSizeT (x : ℚ) : Option Nat :=
  if -1 < x ∧ x < 2 ^ 64 then some ⌊x⌋.toNat else none

/-- The values of the finite non-negative `double`s: `m * 2^e` with `m < 2^53`
and `-1074 ≤ e ≤ 971`. -/
def IsDouble (x : ℚ) : Prop :=
  ∃ m : ℕ, ∃ e : ℤ, m < 2 ^ 53 ∧ -1074 ≤ e ∧ e ≤ 971 ∧ x = (m : ℚ) * 2 ^ e

/-! ## class RandomStreamGen -/

/-- The state of `class RandomStreamGen`; `rsg` is the number of strings drawn
from the generator so far. -/
structure RandomStreamGen where
  stream_size : Nat
  ready_strings_count : Nat
  rsg : Nat
deriving DecidableEq

namespace RandomStreamGen

/-- The constructor `RandomStreamGen(size_t size)`. -/
def new (size : Nat) : RandomStreamGen :=
  { stream_size := size, ready_strings_count := 0, rsg := 0 }

/-- The expression `static_cast<size_t>(stream_size * percent)`, with `percent`
the value of the `double` argument: `stream_size` is converted to `double`, the
product is rounded to a `double` and converted to `size_t`; `none` where that
conversion is undefined. -/
def requestCast (s : RandomStreamGen) (percent : ℚ) : Option Nat :=
  castSizeT (roundDouble (roundDouble (s.stream_size : ℚ) * percent))

/-- The initial value of `count_to_generate`; where the conversion is undefined,
0 stands for the unspecified value. -/
def request (s : RandomStreamGen) (percent : ℚ) : Nat :=
  (s.requestCast percent).getD 0

/-- The value of `count_to_generate` after the clamp of `nextPortion`; the sum
`ready_strings_count + count_to_generate` is a `size_t`. -/
def countToGenerate (s : RandomStreamGen) (percent : ℚ) : Nat :=
  let count_to_generate := s.request percent
  if sizeAdd s.ready_strings_count count_to_generate > s.stream_size then
    sizeSub s.stream_size s.ready_strings_count
  else count_to_generate

/-- The method `nextPortion`; `gen k` is the string that the `k`-th call of
`generateOneString` returns. -/
def nextPortion (gen : Nat → Token) (s : RandomStreamGen) (percent : ℚ) :
    List Token × RandomStreamGen :=
  let count_to_generate := s.countToGenerate percent
  if count_to_generate = 0 then ([], s)
  else
    ((List.range count_to_generate).map fun i => gen (s.rsg + i),
      { s with
        ready_strings_count := sizeAdd s.ready_strings_count count_to_generate
        rsg := s.rsg + count_to_generate })

/-- The method `isFinished`. -/
def isFinished (s : RandomStreamGen) : Bool := s.ready_strings_count ≥ s.stream_size

/-- The state after a sequence of `nextPortion` calls. -/
def run (gen : Nat → Token) (s : RandomStreamGen) : List ℚ → RandomStreamGen
  | [] => s
  | percent :: rest => run gen (nextPortion gen s percent).2 rest

end RandomStreamGen

namespace HyperLogLog
/-- Reference estimate, following the specification: with
`raw = alpha(m) * m^2 / (sum over i of 2^(-registers[i]))` and `v` the number of
registers equal to 0, the result is `m * ln(m / v)` when `raw < 2.5 * m` and
`v > 0`, and `raw` otherwise. -/
noncomputable def approxSpec (m : Nat) (registers : List Int) : ℝ :=
  let raw : ℝ := (get_alpha m : ℝ) * (m : ℝ) ^ 2 / (registers.map fun r => (2 : ℝ) ^ (-r)).sum
  let v : Nat := registers.count 0
  if raw < 2.5 * (m : ℝ) ∧ v > 0 then (m : ℝ) * Real.log ((m : ℝ) / (v : ℝ)) else raw

end HyperLogLog

/-- Reference hash, following the specification: the polynomial
`sum over i of s[i] * A^(len(s) - 1 - i)` in the character values of the token,
reduced modulo `2^32`. -/
def hashSpec (A : Nat) (s : Token) : Nat :=
  ((Finset.sum (Finset.range s.length) fun i =>
      s.getD i 0 * (A : Int) ^ (s.length - 1 - i)) % 2 ^ 32).toNat

/-! ## statsCounter -/

/-- Division of two `double` values, taken exactly; a division by zero has no
value. -/
def divide (x y : ℚ) : Option ℚ := if y = 0 then none else some (x / y)

/-- The value of `sum` after the first loop of `statsCounter`. -/
def statsSum (results : List ℚ) : ℚ := results.foldl (fun sum t => sum + t) 0

/-- The value of `E` in `statsCounter`: `sum / static_cast<double>(n)`. -/
def statsE (results : List ℚ) : Option ℚ :=
  divide (statsSum results) ((results.length % 2 ^ 64 : Nat) : ℚ)

/-- The value of `sumDelux` after the second loop of `statsCounter`. -/
def sumDelux (results : List ℚ) (E : ℚ) : ℚ :=
  results.foldl (fun acc t => acc + (t - E) * (t - E)) 0

/-- The pair `(E, sumDelux / (n - 1))` of `statsCounter`, with `n - 1` computed in
`size_t`. -/
def statsVariance (results : List ℚ) : Option (ℚ × ℚ) :=
  (statsE results).bind fun E =>
    (divide (sumDelux results E) ((sizeSub results.length 1 : Nat) : ℚ)).map fun v => (E, v)

/-- The function `statsCounter`: the pair `(E, sigma)` with
`sigma = std::sqrt(sumDelux / (n - 1))`. -/
noncomputable def statsCounter (results : List ℚ) : Option (ℚ × ℝ) :=
  (statsVariance results).map fun p => (p.1, Real.sqrt ((p.2 : ℚ) : ℝ))

/-! ## RandomStreamGen::generateOneString -/

/-- The array `charset` of `generateOneString`: the characters of the string
literal followed by the terminating zero. -/
def charset : List Int :=
  ("0123456789ABCDEFGHIJKLMNOPQRSTUVWXYZabcdefghijklmnopqrstuvwxyz-".toList.map
    fun c => (c.toNat : Int)) ++ [0]

/-- The local `alphabet_size` of `generateOneString`. -/
def alphabet_size : Nat := 62

/-- The function `generateOneString`, with the drawn length and the drawn
character indices as parameters (`draws i` is the value of `dist_char(rsg)` in
iteration `i`); reading outside `charset` has no value. -/
def generateOneString (length : Nat) (draws : Nat → Nat) : Option Token :=
  (List.range length).foldl
    (fun result i =>
      match result, charset[draws i]? with
      | some r, some c => some (r ++ [c])
      | _, _ => none)
    (some [])

/-! ## The driver loop of main -/

/-- The loop `while (!stream.isFinished()) { data = stream.nextPortion(percent); ... }`
of `main`, reduced to its effect on the stream source: the number of
`nextPortion` calls made until `isFinished()` holds, or `none` when it does not
hold within `fuel` calls. -/
def driverLoop (gen : Nat → Token) (percent : ℚ) : Nat → RandomStreamGen → Option Nat
  | 0, s => if s.isFinished then some 0 else none
  | fuel + 1, s =>
    if s.isFinished then some 0
    else (driverLoop gen percent fuel (RandomStreamGen.nextPortion gen s percent).2).map
      fun calls => calls + 1

/-! # Theorems -/

theorem toUnsigned_natCast (n : Nat) (h : n < 2 ^ 32) : toUnsigned (n : Int) = n := by
  unfold toUnsigned
  omega

theorem toInt32_small (n : Nat) (h : n < 2 ^ 31) : toInt32 n = (n : Int) := by
  unfold toInt32
  have h1 : n % 2 ^ 32 = n := Nat.mod_eq_of_lt (by omega)
  rw [h1, if_pos h]

theorem sizeSub_32 (B : Nat) (h : B ≤ 32) : sizeSub 32 B = 32 - B := by
  unfold sizeSub
  omega

theorem clzFrom_le (n x : Nat) : clzFrom n x ≤ n := by
  induction n with
  | zero => simp [clzFrom]
  | succ n ih =>
    unfold clzFrom
    split <;> omega

theorem clzFrom_zero (n : Nat) : clzFrom n 0 = n := by
  induction n with
  | zero => rfl
  | succ n ih => simp [clzFrom, ih]

theorem testBit_top {x n : Nat} (hx : x < 2 ^ (n + 1)) : x.testBit n = decide (2 ^ n ≤ x) := by
  by_cases h : 2 ^ n ≤ x
  · have hx2 : x = 2 ^ n + (x - 2 ^ n) := by omega
    have hlt : x - 2 ^ n < 2 ^ n := by
      have : 2 ^ (n + 1) = 2 * 2 ^ n := by ring
      omega
    rw [hx2, Nat.testBit_two_pow_add_eq, Nat.testBit_lt_two_pow hlt]
    simp
  · have : x < 2 ^ n := by omega
    rw [Nat.testBit_lt_two_pow this]
    simp [h]

/-- for a non-zero word below `2^n` whose highest set bit is bit `k`, the count is `n - 1 - k` -/
theorem clzFrom_eq {n x k : Nat} (hx : x < 2 ^ n) (hlo : 2 ^ k ≤ x) (hhi : x < 2 ^ (k + 1)) :
    clzFrom n x = n - 1 - k := by
  induction n with
  | zero =>
    have : 0 < 2 ^ k := Nat.two_pow_pos k
    simp at hx
    omega
  | succ n ih =>
    have hkn : k < n + 1 := by
      by_contra hc
      have : 2 ^ (n + 1) ≤ 2 ^ k := Nat.pow_le_pow_right (by norm_num) (by omega)
      omega
    unfold clzFrom
    rw [testBit_top hx]
    by_cases h : 2 ^ n ≤ x
    · have hk : k = n := by
        by_contra hc
        have : 2 ^ (k + 1) ≤ 2 ^ n := Nat.pow_le_pow_right (by norm_num) (by omega)
        omega
      simp [h, hk]
    · have hx2 : x < 2 ^ n := by omega
      have hk : k < n := by
        by_contra hc
        have : 2 ^ n ≤ 2 ^ k := Nat.pow_le_pow_right (by norm_num) (by omega)
        omega
      simp [h]
      rw [ih hx2]
      omega

theorem clzFrom_le_of_ge {n x k : Nat} (hx : x < 2 ^ n) (hlo : 2 ^ k ≤ x) :
    clzFrom n x + k + 1 ≤ n := by
  induction n with
  | zero =>
    have : 0 < 2 ^ k := Nat.two_pow_pos k
    simp at hx
    omega
  | succ n ih =>
    unfold clzFrom
    rw [testBit_top hx]
    have hkn : k < n + 1 := by
      by_contra hc
      have : 2 ^ (n + 1) ≤ 2 ^ k := Nat.pow_le_pow_right (by norm_num) (by omega)
      omega
    by_cases h : 2 ^ n ≤ x
    · simp [h]; omega
    · have hx2 : x < 2 ^ n := by omega
      simp [h]
      have := ih hx2
      omega

namespace HyperLogLog

theorem countl_zero_le (x : Nat) : countl_zero x ≤ 32 := clzFrom_le 32 x

theorem rankVal_pos (B hash : Nat) : 1 ≤ rankVal B hash := by
  unfold rankVal; omega

theorem rankVal_le (B hash : Nat) : rankVal B hash ≤ 33 := by
  have := countl_zero_le (hash * 2 ^ B % 2 ^ 32)
  unfold rankVal; omega

theorem bucket_eq {B : Nat} (h1 : 1 ≤ B) (h2 : B ≤ 32) (hash : Nat) :
    bucket B hash = some (bucketIdx B hash) := by
  unfold bucket shr32 bucketIdx
  rw [sizeSub_32 B h2, if_pos (by omega)]

theorem rank_eq {B : Nat} (h2 : B ≤ 31) (hash : Nat) :
    rank B hash = some (rankVal B hash) := by
  have hle := countl_zero_le (hash * 2 ^ B % 2 ^ 32)
  unfold rank shl32 rankVal
  rw [if_pos (by omega)]
  simp only [Option.map_some']
  congr 1
  have : ((countl_zero (hash * 2 ^ B % 2 ^ 32) : Int) + 1)
      = ((countl_zero (hash * 2 ^ B % 2 ^ 32) + 1 : Nat) : Int) := by push_cast; rfl
  rw [this, toUnsigned_natCast _ (by omega)]

theorem bucketIdx_lt {B hash : Nat} (h1 : 1 ≤ B) (h2 : B ≤ 32) (hh : hash < 2 ^ 32) :
    bucketIdx B hash < 2 ^ B := by
  unfold bucketIdx
  rw [Nat.div_lt_iff_lt_mul (Nat.two_pow_pos _), ← Nat.pow_add]
  have : B + (32 - B) = 32 := by omega
  rw [this]; exact hh

theorem hashOf_lt (s : HyperLogLog) (t : Token) : s.hashOf t < 2 ^ 32 :=
  Nat.mod_lt _ (by norm_num)

theorem step_eq {s : HyperLogLog} (hv : s.Valid) (t : Token) :
    s.step t = some (s.stepFn t) := by
  obtain ⟨h1, h2, h3, _⟩ := hv
  have hidx : bucketIdx s.B (s.hashOf t) < s.subStreams.length :=
    lt_of_lt_of_le (bucketIdx_lt h1 (by omega) (s.hashOf_lt t)) h3
  unfold step stepFn
  simp only [bucket_eq h1 (by omega : s.B ≤ 32), rank_eq h2]
  rw [List.getElem?_eq_getElem hidx]
  simp only [register, List.getD_eq_getElem _ _ hidx]
  split <;> rfl

theorem stepFn_B (s : HyperLogLog) (t : Token) : (s.stepFn t).B = s.B := by
  unfold stepFn; split <;> rfl

theorem stepFn_m (s : HyperLogLog) (t : Token) : (s.stepFn t).m = s.m := by
  unfold stepFn; split <;> rfl

theorem stepFn_h (s : HyperLogLog) (t : Token) : (s.stepFn t).h = s.h := by
  unfold stepFn; split <;> rfl

theorem stepFn_length (s : HyperLogLog) (t : Token) :
    (s.stepFn t).subStreams.length = s.subStreams.length := by
  unfold stepFn; split <;> simp

theorem stepFn_hashOf (s : HyperLogLog) (t u : Token) : (s.stepFn t).hashOf u = s.hashOf u := by
  unfold hashOf; rw [stepFn_h]

theorem toInt32_rankVal (B hash : Nat) : toInt32 (rankVal B hash) = (rankVal B hash : Int) :=
  toInt32_small _ (by have := rankVal_le B hash; omega)

/-- the register array after one step, register by register -/
theorem stepFn_register (s : HyperLogLog) (t : Token) (i : Nat) :
    (s.stepFn t).register i =
      if i = bucketIdx s.B (s.hashOf t) ∧ i < s.subStreams.length ∧
          rankVal s.B (s.hashOf t) > toUnsigned (s.register i)
      then (rankVal s.B (s.hashOf t) : Int) else s.register i := by
  unfold stepFn
  by_cases hc : rankVal s.B (s.hashOf t) > toUnsigned (s.register (bucketIdx s.B (s.hashOf t)))
  · rw [if_pos hc]
    simp only [register, List.getD_eq_getElem?_getD, List.getElem?_set, toInt32_rankVal]
    by_cases hi : bucketIdx s.B (s.hashOf t) = i
    · subst hi
      by_cases hl : bucketIdx s.B (s.hashOf t) < s.subStreams.length
      · simp only [register, List.getD_eq_getElem?_getD, List.getElem?_eq_getElem hl,
          Option.getD_some] at hc
        simp [hl, hc, List.getElem?_eq_getElem hl]
      · have hn : s.subStreams[bucketIdx s.B (s.hashOf t)]? = none :=
          List.getElem?_eq_none (by omega)
        simp [hl, hn]
    · have : ¬ i = bucketIdx s.B (s.hashOf t) := fun h => hi h.symm
      simp [hi, this]
  · rw [if_neg hc]
    by_cases hi : i = bucketIdx s.B (s.hashOf t)
    · subst hi; simp [hc]
    · simp [hi]

theorem stepFn_valid {s : HyperLogLog} (hv : s.Valid) (t : Token) : (s.stepFn t).Valid := by
  obtain ⟨h1, h2, h3, h4⟩ := hv
  refine ⟨by rw [stepFn_B]; exact h1, by rw [stepFn_B]; exact h2,
    by rw [stepFn_B, stepFn_length]; exact h3, ?_⟩
  intro r hr
  unfold stepFn at hr
  split at hr
  · simp only at hr
    rcases List.mem_or_eq_of_mem_set hr with h | h
    · exact h4 r h
    · rw [h, toInt32_rankVal]
      have := rankVal_le s.B (s.hashOf t)
      omega
  · exact h4 r hr

theorem workWithStrings_eq {s : HyperLogLog} (hv : s.Valid) (ts : List Token) :
    s.workWithStrings ts = some (ts.foldl stepFn s) := by
  induction ts generalizing s with
  | nil => rfl
  | cons t ts ih =>
    simp only [workWithStrings, step_eq hv, List.foldl_cons]
    exact ih (stepFn_valid hv t)

theorem foldl_stepFn_valid {s : HyperLogLog} (hv : s.Valid) (ts : List Token) :
    (ts.foldl stepFn s).Valid := by
  induction ts generalizing s with
  | nil => exact hv
  | cons t ts ih => exact ih (stepFn_valid hv t)

theorem updates_eq {s : HyperLogLog} (hv : s.Valid) (bs : List (List Token)) :
    s.updates bs = some (bs.flatten.foldl stepFn s) := by
  induction bs generalizing s with
  | nil => rfl
  | cons b bs ih =>
    simp only [updates, workWithStrings_eq hv, List.flatten_cons, List.foldl_append]
    exact ih (foldl_stepFn_valid hv b)


/-! ### The constructor -/

theorem new_eq {B : Nat} (hB : B ≤ 30) (H : Token → Nat) :
    HyperLogLog.new B H =
      some { B := B, m := 2 ^ B, subStreams := List.replicate (2 ^ B) 0, h := H } := by
  have hlt : 2 ^ B < 2 ^ 31 := Nat.pow_lt_pow_right (by norm_num) (by omega)
  have hm : toSizeT (toInt32 (1 * 2 ^ B)) = 2 ^ B := by
    rw [Nat.one_mul, toInt32_small _ hlt]
    unfold toSizeT
    generalize 2 ^ B = n at hlt
    omega
  unfold HyperLogLog.new shlInt
  rw [if_pos (by omega)]
  simp only [hm]
  rw [if_pos (by generalize 2 ^ B = n at hlt; omega)]

theorem new_none {B : Nat} (hB : 31 ≤ B) (H : Token → Nat) : HyperLogLog.new B H = none := by
  unfold HyperLogLog.new shlInt
  by_cases h : B < 32
  · have : B = 31 := by omega
    subst this
    rw [if_pos (by norm_num)]
    have : toSizeT (toInt32 (1 * 2 ^ 31)) = 2 ^ 64 - 2 ^ 31 := by
      rfl
    simp only [this]
    rw [if_neg (by norm_num)]
  · rw [if_neg h]

theorem new_some {B : Nat} {H : Token → Nat} {s : HyperLogLog} (h : HyperLogLog.new B H = some s) :
    B ≤ 30 ∧ s = { B := B, m := 2 ^ B, subStreams := List.replicate (2 ^ B) 0, h := H } := by
  by_cases hB : B ≤ 30
  · rw [new_eq hB] at h
    exact ⟨hB, (Option.some.inj h).symm⟩
  · rw [new_none (by omega)] at h
    exact absurd h (by simp)

theorem new_valid {B : Nat} {H : Token → Nat} {s : HyperLogLog} (h : HyperLogLog.new B H = some s)
    (hB : 1 ≤ B) : s.Valid := by
  obtain ⟨h30, rfl⟩ := new_some h
  refine ⟨hB, by simp only; omega, by simp, ?_⟩
  intro r hr
  rw [List.eq_of_mem_replicate hr]
  norm_num

/-! ### Registers as maxima -/

theorem register_range {s : HyperLogLog} (hv : s.Valid) (i : Nat) :
    -2 ^ 31 ≤ s.register i ∧ s.register i < 2 ^ 31 := by
  unfold register
  by_cases hi : i < s.subStreams.length
  · rw [List.getD_eq_getElem _ _ hi]
    exact hv.2.2.2 _ (List.getElem_mem hi)
  · rw [List.getD_eq_default _ _ (by omega)]
    norm_num

theorem maxRank_cons (B : Nat) (H : Token → Nat) (t : Token) (ts : List Token) (i : Nat) :
    maxRank B H (t :: ts) i =
      if bucketIdx B (H t % 2 ^ 32) = i then max (rankVal B (H t % 2 ^ 32)) (maxRank B H ts i)
      else maxRank B H ts i := by
  unfold maxRank
  rw [List.filter_cons]
  by_cases h : bucketIdx B (H t % 2 ^ 32) = i
  · simp only [h, decide_True, if_true, List.map_cons, List.foldr_cons]
  · simp only [h, decide_False, if_false, Bool.false_eq_true]

theorem stepFn_register_max {s : HyperLogLog} (hv : s.Valid) (hn : s.NonNeg) (t : Token)
    {i : Nat} (hi : i < s.subStreams.length) :
    (s.stepFn t).register i =
      max (s.register i)
        (if bucketIdx s.B (s.hashOf t) = i then (rankVal s.B (s.hashOf t) : Int) else 0) := by
  rw [stepFn_register]
  have h0 := hn i
  have hr := register_range hv i
  have hu : (toUnsigned (s.register i) : Int) = s.register i := by
    unfold toUnsigned; omega
  by_cases hb : bucketIdx s.B (s.hashOf t) = i
  · rw [if_pos hb]
    by_cases hc : rankVal s.B (s.hashOf t) > toUnsigned (s.register i)
    · rw [if_pos ⟨hb.symm, hi, hc⟩]; omega
    · rw [if_neg (fun h => hc h.2.2)]; omega
  · rw [if_neg hb, if_neg (fun h => hb h.1.symm)]; omega

theorem stepFn_nonNeg {s : HyperLogLog} (hn : s.NonNeg) (t : Token) : (s.stepFn t).NonNeg := by
  intro i
  rw [stepFn_register]
  split
  · omega
  · exact hn i

theorem foldl_register_max {s : HyperLogLog} (hv : s.Valid) (hn : s.NonNeg) (ts : List Token)
    {i : Nat} (hi : i < s.subStreams.length) :
    (ts.foldl stepFn s).register i = max (s.register i) (maxRank s.B s.h ts i : Int) := by
  induction ts generalizing s with
  | nil =>
    have := hn i
    simp [maxRank]; omega
  | cons t ts ih =>
    rw [List.foldl_cons, ih (stepFn_valid hv t) (stepFn_nonNeg hn t)
      (by rw [stepFn_length]; exact hi), stepFn_register_max hv hn t hi, stepFn_B, stepFn_h,
      maxRank_cons]
    unfold hashOf
    by_cases hb : bucketIdx s.B (s.h t % 2 ^ 32) = i
    · simp only [if_pos hb]; push_cast; omega
    · simp only [if_neg hb]; omega


theorem le_maxRank (B : Nat) (H : Token → Nat) (ts : List Token) (i : Nat) (t : Token)
    (ht : t ∈ ts) (hb : bucketIdx B (H t % 2 ^ 32) = i) :
    rankVal B (H t % 2 ^ 32) ≤ maxRank B H ts i := by
  induction ts with
  | nil => simp at ht
  | cons u ts ih =>
    rw [maxRank_cons]
    rcases List.mem_cons.1 ht with h | h
    · subst h
      rw [if_pos hb]; exact le_max_left _ _
    · have := ih h
      split
      · exact le_trans this (le_max_right _ _)
      · exact this

theorem maxRank_attained (B : Nat) (H : Token → Nat) (ts : List Token) (i : Nat) :
    (∃ t ∈ ts, bucketIdx B (H t % 2 ^ 32) = i ∧ rankVal B (H t % 2 ^ 32) = maxRank B H ts i) ∨
      (maxRank B H ts i = 0 ∧ ∀ t ∈ ts, bucketIdx B (H t % 2 ^ 32) ≠ i) := by
  induction ts with
  | nil => right; simp [maxRank]
  | cons u ts ih =>
    rw [maxRank_cons]
    by_cases hb : bucketIdx B (H u % 2 ^ 32) = i
    · rw [if_pos hb]
      left
      rcases le_total (maxRank B H ts i) (rankVal B (H u % 2 ^ 32)) with hle | hle
      · exact ⟨u, List.mem_cons_self _ _, hb, (max_eq_left hle).symm⟩
      · rcases ih with ⟨t, ht, hbt, hrt⟩ | ⟨h0, _⟩
        · exact ⟨t, List.mem_cons_of_mem _ ht, hbt, by rw [hrt, max_eq_right hle]⟩
        · have := rankVal_pos B (H u % 2 ^ 32)
          omega
    · rw [if_neg hb]
      rcases ih with ⟨t, ht, hbt, hrt⟩ | ⟨h0, hall⟩
      · exact Or.inl ⟨t, List.mem_cons_of_mem _ ht, hbt, hrt⟩
      · refine Or.inr ⟨h0, ?_⟩
        intro t ht
        rcases List.mem_cons.1 ht with h | h
        · subst h; exact hb
        · exact hall t h

/-- C1: starting from a freshly constructed sketch with precision `B` and hash
function `H`, any sequence of `workWithStrings` calls returns, and afterwards
every register `i < 2^B` holds exactly the maximum of `rank(H(t))` over the
tokens `t` fed so far with `bucket(H(t)) = i` (the reference value `maxRank`):
it bounds the rank of every such token, it is the rank of one of them when
there is one, and it is 0 when no fed token maps to bucket `i`. -/
theorem C1_registers_hold_bucket_maxima (B : Nat) (H : Token → Nat) (s0 : HyperLogLog)
    (hB : 1 ≤ B) (hnew : HyperLogLog.new B H = some s0) (batches : List (List Token)) :
    ∃ s, s0.updates batches = some s ∧ s.subStreams.length = 2 ^ B ∧
      ∀ i, i < 2 ^ B →
        s.register i = (maxRank B H batches.flatten i : Int) ∧
        (∀ t ∈ batches.flatten, bucket B (H t % 2 ^ 32) = some i →
          ∃ r, rank B (H t % 2 ^ 32) = some r ∧ (r : Int) ≤ s.register i) ∧
        ((∃ t ∈ batches.flatten, bucket B (H t % 2 ^ 32) = some i ∧
            rank B (H t % 2 ^ 32) = some (s.register i).toNat) ∨
          (s.register i = 0 ∧ ∀ t ∈ batches.flatten, bucket B (H t % 2 ^ 32) ≠ some i)) := by
  have hv := new_valid hnew hB
  obtain ⟨h30, hs0⟩ := new_some hnew
  have hB0 : s0.B = B := by rw [hs0]
  have hH0 : s0.h = H := by rw [hs0]
  have hlen : s0.subStreams.length = 2 ^ B := by rw [hs0]; simp
  have hreg0 : ∀ i, s0.register i = 0 := by
    intro i
    rw [hs0]
    simp only [register, List.getD_eq_getElem?_getD, List.getElem?_replicate]
    split <;> rfl
  have hnn : s0.NonNeg := fun i => by rw [hreg0 i]
  refine ⟨batches.flatten.foldl stepFn s0, updates_eq hv batches, ?_, ?_⟩
  · have : ∀ (ts : List Token) (s : HyperLogLog),
        (ts.foldl stepFn s).subStreams.length = s.subStreams.length := by
      intro ts
      induction ts with
      | nil => intro s; rfl
      | cons t ts ih => intro s; rw [List.foldl_cons, ih, stepFn_length]
    rw [this, hlen]
  · intro i hi
    have hreg : (batches.flatten.foldl stepFn s0).register i
        = (maxRank B H batches.flatten i : Int) := by
      rw [foldl_register_max hv hnn _ (by rw [hlen]; exact hi), hreg0 i, hB0, hH0]
      omega
    have hb : ∀ x, bucket B x = some (bucketIdx B x) := bucket_eq hB (by omega)
    have hr : ∀ x, rank B x = some (rankVal B x) := rank_eq (by omega)
    refine ⟨hreg, ?_, ?_⟩
    · intro t ht hbt
      rw [hb] at hbt
      refine ⟨_, hr _, ?_⟩
      rw [hreg]
      exact_mod_cast le_maxRank B H _ i t ht (Option.some.inj hbt)
    · rcases maxRank_attained B H batches.flatten i with ⟨t, ht, hbt, hrt⟩ | ⟨h0, hall⟩
      · left
        refine ⟨t, ht, by rw [hb, hbt], ?_⟩
        rw [hr, hreg, hrt]; rfl
      · right
        refine ⟨by rw [hreg, h0]; rfl, ?_⟩
        intro t ht hbt
        rw [hb] at hbt
        exact hall t ht (Option.some.inj hbt)


/-! ### Bounds on the registers -/

theorem rankVal_cases {B : Nat} (h2 : B ≤ 31) (hash : Nat) :
    rankVal B hash + B ≤ 32 ∨ rankVal B hash = 33 := by
  unfold rankVal countl_zero
  by_cases hw : hash * 2 ^ B % 2 ^ 32 = 0
  · right; rw [hw, clzFrom_zero]
  · left
    have hdvd : 2 ^ B ∣ hash * 2 ^ B % 2 ^ 32 :=
      (Nat.dvd_mod_iff (Nat.pow_dvd_pow 2 (by omega : B ≤ 32))).2 (Nat.dvd_mul_left _ _)
    have hge : 2 ^ B ≤ hash * 2 ^ B % 2 ^ 32 := Nat.le_of_dvd (Nat.pos_of_ne_zero hw) hdvd
    have := clzFrom_le_of_ge (Nat.mod_lt _ (by norm_num : 0 < 2 ^ 32)) hge
    omega

theorem foldl_stepFn_B (ts : List Token) (s : HyperLogLog) : (ts.foldl stepFn s).B = s.B := by
  induction ts generalizing s with
  | nil => rfl
  | cons t ts ih => rw [List.foldl_cons, ih, stepFn_B]

theorem foldl_stepFn_m (ts : List Token) (s : HyperLogLog) : (ts.foldl stepFn s).m = s.m := by
  induction ts generalizing s with
  | nil => rfl
  | cons t ts ih => rw [List.foldl_cons, ih, stepFn_m]

theorem foldl_stepFn_h (ts : List Token) (s : HyperLogLog) : (ts.foldl stepFn s).h = s.h := by
  induction ts generalizing s with
  | nil => rfl
  | cons t ts ih => rw [List.foldl_cons, ih, stepFn_h]

theorem foldl_stepFn_length (ts : List Token) (s : HyperLogLog) :
    (ts.foldl stepFn s).subStreams.length = s.subStreams.length := by
  induction ts generalizing s with
  | nil => rfl
  | cons t ts ih => rw [List.foldl_cons, ih, stepFn_length]

theorem foldl_stepFn_bound {s : HyperLogLog} (h2 : s.B ≤ 31) (ts : List Token)
    (h : ∀ i, 0 ≤ s.register i ∧ (s.register i + s.B ≤ 32 ∨ s.register i = 33)) :
    ∀ i, 0 ≤ (ts.foldl stepFn s).register i ∧
      ((ts.foldl stepFn s).register i + s.B ≤ 32 ∨ (ts.foldl stepFn s).register i = 33) := by
  induction ts generalizing s with
  | nil => exact h
  | cons t ts ih =>
    rw [List.foldl_cons]
    have hB := stepFn_B s t
    rw [← hB]
    apply ih (by rw [hB]; exact h2)
    intro i
    rw [stepFn_register, hB]
    split
    · have := rankVal_cases h2 (s.hashOf t)
      omega
    · exact h i

theorem new_register {B : Nat} {H : Token → Nat} {s : HyperLogLog}
    (h : HyperLogLog.new B H = some s) (i : Nat) : s.register i = 0 := by
  obtain ⟨_, rfl⟩ := new_some h
  simp only [register, List.getD_eq_getElem?_getD, List.getElem?_replicate]
  split <;> rfl

/-- C2 (as stated) fails: with precision 4 and the hash function of multiplier
1001, feeding the token "9YGiN" (hash `0x50000000`, all 28 low bits zero) leaves
33 in register 5, above `33 - 4`. -/
theorem C2_counterexample :
    ∃ s0 s, HyperLogLog.new 4 (hashFunc 1001) = some s0 ∧
      s0.updates [[[57, 89, 71, 105, 78]]] = some s ∧
      s.register 5 = 33 ∧ ¬ s.register 5 ≤ 33 - 4 :=
  ⟨_, _, rfl, rfl, rfl, by decide⟩

/-- C2 (amended): for every precision `B ≥ 1` with which a sketch is
constructed, every hash function and every sequence of updates, the updates
return and every register value is non-negative and either at most `32 - B`
(hence at most `33 - B`) or exactly 33. -/
theorem C2_register_bound (B : Nat) (H : Token → Nat) (s0 : HyperLogLog)
    (hB : 1 ≤ B) (hnew : HyperLogLog.new B H = some s0) (batches : List (List Token)) :
    ∃ s, s0.updates batches = some s ∧
      ∀ i, 0 ≤ s.register i ∧ (s.register i ≤ 32 - (B : Int) ∨ s.register i = 33) := by
  have hv := new_valid hnew hB
  have hB0 : s0.B = B := by rw [(new_some hnew).2]
  refine ⟨_, updates_eq hv batches, ?_⟩
  intro i
  have h30 : s0.B ≤ 30 := by rw [hB0]; exact (new_some hnew).1
  have := foldl_stepFn_bound (s := s0) (by omega)
    batches.flatten (fun j => by rw [new_register hnew j]; omega) i
  rw [hB0] at this
  omega

/-! ### Monotonicity -/

theorem stepFn_register_le {s : HyperLogLog} (hv : s.Valid) (t : Token) (i : Nat) :
    s.register i ≤ (s.stepFn t).register i := by
  rw [stepFn_register]
  split
  · rename_i h
    have hr := register_range hv i
    have hc := h.2.2
    unfold toUnsigned at hc
    omega
  · exact le_refl _

theorem foldl_register_le {s : HyperLogLog} (hv : s.Valid) (ts : List Token) (i : Nat) :
    s.register i ≤ (ts.foldl stepFn s).register i := by
  induction ts generalizing s with
  | nil => exact le_refl _
  | cons t ts ih =>
    rw [List.foldl_cons]
    exact le_trans (stepFn_register_le hv t i) (ih (stepFn_valid hv t))

/-- C3: on every sketch state on which the update is defined, `workWithStrings`
returns for every batch, and each register afterwards is at least its value
before; the same holds over any sequence of updates. -/
theorem C3_registers_never_decrease (s : HyperLogLog) (hv : s.Valid) (batch : List Token)
    (batches : List (List Token)) :
    (∃ s1, s.workWithStrings batch = some s1 ∧ s1.Valid ∧
      ∀ i, s.register i ≤ s1.register i) ∧
    (∃ s2, s.updates batches = some s2 ∧ s2.Valid ∧ ∀ i, s.register i ≤ s2.register i) :=
  ⟨⟨_, workWithStrings_eq hv batch, foldl_stepFn_valid hv batch, foldl_register_le hv batch⟩,
    ⟨_, updates_eq hv batches, foldl_stepFn_valid hv _, foldl_register_le hv _⟩⟩

/-! ### Bucket indices stay in range -/

/-- C4 (as stated) fails: for precision 31 the constructor computes `1 << 31`
as the `int` `-2^31`, that is `m = 2^64 - 2^31` rather than `2^31`, and no
sketch is constructed; for precision 32 the shift `1 << 32` is undefined. -/
theorem C4_counterexample :
    (shlInt 1 31).map toSizeT = some (2 ^ 64 - 2 ^ 31) ∧
      HyperLogLog.new 31 (hashFunc 1001) = none ∧
      shlInt 1 32 = none ∧ HyperLogLog.new 32 (hashFunc 1001) = none :=
  ⟨rfl, new_none (le_refl _) _, rfl, new_none (by norm_num) _⟩

/-- C4 (amended): for every precision `1 ≤ B ≤ 30` the constructor returns a
sketch with `m = 2^B` registers; for every 32-bit hash value the bucket index
`hash >> (32 - B)` is defined and below `2^B`; and every sequence of updates
returns (no register access is out of range) and leaves `B`, `m` and the number
of registers unchanged. -/
theorem C4_bucket_in_range (B : Nat) (hB : 1 ≤ B) (hB30 : B ≤ 30) (H : Token → Nat) :
    ∃ s0, HyperLogLog.new B H = some s0 ∧ s0.m = 2 ^ B ∧ s0.subStreams.length = 2 ^ B ∧
      (∀ hash, hash < 2 ^ 32 → ∃ index, bucket B hash = some index ∧ index < 2 ^ B) ∧
      ∀ batches, ∃ s, s0.updates batches = some s ∧
        s.B = B ∧ s.m = 2 ^ B ∧ s.subStreams.length = 2 ^ B := by
  refine ⟨_, new_eq hB30 H, rfl, by simp, ?_, ?_⟩
  · intro hash hh
    exact ⟨_, bucket_eq hB (by omega) hash, bucketIdx_lt hB (by omega) hh⟩
  · intro batches
    have hv := new_valid (new_eq hB30 H) hB
    refine ⟨_, updates_eq hv batches, ?_, ?_, ?_⟩
    · rw [foldl_stepFn_B]
    · rw [foldl_stepFn_m]
    · rw [foldl_stepFn_length]; simp


/-! ### Bucket and rank of a hash rebuilt from its parts -/

theorem suffix_bounds {n s k : Nat} (hs : s < 2 ^ n) (hk : k < n)
    (hzeros : ∀ j, j < k → s.testBit (n - 1 - j) = false)
    (hone : s.testBit (n - 1 - k) = true) :
    2 ^ (n - 1 - k) ≤ s ∧ s < 2 ^ (n - k) := by
  refine ⟨Nat.testBit_implies_ge hone, ?_⟩
  apply Nat.lt_pow_two_of_testBit
  intro i hi
  by_cases hin : n ≤ i
  · exact Nat.testBit_lt_two_pow (lt_of_lt_of_le hs (Nat.pow_le_pow_right (by norm_num) hin))
  · have := hzeros (n - 1 - i) (by omega)
    have hi2 : n - 1 - (n - 1 - i) = i := by omega
    rw [hi2] at this
    exact this

theorem rebuilt_hash {B b s : Nat} (hs : s < 2 ^ (32 - B)) :
    b <<< (32 - B) ||| s = 2 ^ (32 - B) * b + s := by
  rw [Nat.shiftLeft_eq, Nat.mul_comm, Nat.mul_add_lt_is_or hs]

/-- C5: for every precision `1 ≤ B ≤ 31`, every bucket value `b < 2^B` and every
`(32 - B)`-bit suffix `s` whose `k` highest bits are zero and whose next bit is
one, the hash `h = (b << (32 - B)) | s` is a 32-bit word with
`bucket(h) = b` and `rank(h) = k + 1`. -/
theorem C5_bucket_rank_of_rebuilt_hash (B b s k : Nat) (hB1 : 1 ≤ B) (hB31 : B ≤ 31)
    (hb : b < 2 ^ B) (hs : s < 2 ^ (32 - B)) (hk : k < 32 - B)
    (hzeros : ∀ j, j < k → s.testBit (32 - B - 1 - j) = false)
    (hone : s.testBit (32 - B - 1 - k) = true) :
    b <<< (32 - B) ||| s < 2 ^ 32 ∧
      bucket B (b <<< (32 - B) ||| s) = some b ∧
      rank B (b <<< (32 - B) ||| s) = some (k + 1) := by
  obtain ⟨hlo, hhi⟩ := suffix_bounds hs hk hzeros hone
  have hpow : 2 ^ (32 - B) * 2 ^ B = 2 ^ 32 := by
    rw [← Nat.pow_add]; congr 1; omega
  have hpos : 0 < 2 ^ (32 - B) := Nat.two_pow_pos _
  rw [rebuilt_hash hs, bucket_eq hB1 (by omega), rank_eq hB31]
  refine ⟨?_, ?_, ?_⟩
  · calc 2 ^ (32 - B) * b + s < 2 ^ (32 - B) * b + 2 ^ (32 - B) := by omega
      _ = 2 ^ (32 - B) * (b + 1) := by ring
      _ ≤ 2 ^ (32 - B) * 2 ^ B := Nat.mul_le_mul_left _ hb
      _ = 2 ^ 32 := hpow
  · congr 1
    unfold bucketIdx
    rw [Nat.mul_add_div hpos, Nat.div_eq_of_lt hs, Nat.add_zero]
  · congr 1
    unfold rankVal countl_zero
    have hw : (2 ^ (32 - B) * b + s) * 2 ^ B % 2 ^ 32 = s * 2 ^ B := by
      have : (2 ^ (32 - B) * b + s) * 2 ^ B = s * 2 ^ B + 2 ^ 32 * b := by
        rw [← hpow]; ring
      rw [this, Nat.add_mul_mod_self_left]
      apply Nat.mod_eq_of_lt
      calc s * 2 ^ B < 2 ^ (32 - B) * 2 ^ B := Nat.mul_lt_mul_of_pos_right hs (Nat.two_pow_pos _)
        _ = 2 ^ 32 := hpow
    rw [hw]
    have h1 : 2 ^ (31 - k) ≤ s * 2 ^ B := by
      have : 2 ^ (31 - k) = 2 ^ (32 - B - 1 - k) * 2 ^ B := by
        rw [← Nat.pow_add]; congr 1; omega
      rw [this]
      exact Nat.mul_le_mul_right _ hlo
    have h2 : s * 2 ^ B < 2 ^ (31 - k + 1) := by
      have : 2 ^ (31 - k + 1) = 2 ^ (32 - B - k) * 2 ^ B := by
        rw [← Nat.pow_add]; congr 1; omega
      rw [this]
      exact Nat.mul_lt_mul_of_pos_right hhi (Nat.two_pow_pos _)
    have h3 : s * 2 ^ B < 2 ^ 32 :=
      lt_of_lt_of_le h2 (Nat.pow_le_pow_right (by norm_num) (by omega))
    rw [clzFrom_eq h3 h1 h2]
    omega

/-- C5 at the two hashes of the specification: with `B = 4`, bucket 0 and suffix
`1` (27 leading zeros) give the hash `0x00000001` with bucket 0 and rank 28;
bucket 15 and suffix `0x0FFFFFFF` (no leading zero) give `0xFFFFFFFF` with
bucket 15 and rank 1. -/
theorem C5_witness :
    (bucket 4 0x00000001 = some 0 ∧ rank 4 0x00000001 = some 28) ∧
      (bucket 4 0xFFFFFFFF = some 15 ∧ rank 4 0xFFFFFFFF = some 1) :=
  ⟨(C5_bucket_rank_of_rebuilt_hash 4 0 1 27 (by decide) (by decide) (by decide) (by decide)
      (by decide) (by decide) (by decide)).2,
    (C5_bucket_rank_of_rebuilt_hash 4 15 0x0FFFFFFF 0 (by decide) (by decide) (by decide)
      (by decide) (by decide) (by decide) (by decide)).2⟩


/-! ### Duplicates -/

theorem stepFn_noop {s : HyperLogLog} {t : Token}
    (h : rankVal s.B (s.hashOf t) ≤ toUnsigned (s.register (bucketIdx s.B (s.hashOf t)))) :
    s.stepFn t = s := by
  unfold stepFn
  rw [if_neg (by omega)]

theorem stepFn_unsigned_le (s : HyperLogLog) (t : Token) (i : Nat) :
    toUnsigned (s.register i) ≤ toUnsigned ((s.stepFn t).register i) := by
  rw [stepFn_register]
  split
  · rename_i h
    rw [toUnsigned_natCast _ (by have := rankVal_le s.B (s.hashOf t); omega)]
    omega
  · exact le_refl _

theorem foldl_unsigned_le (ts : List Token) (s : HyperLogLog) (i : Nat) :
    toUnsigned (s.register i) ≤ toUnsigned ((ts.foldl stepFn s).register i) := by
  induction ts generalizing s with
  | nil => exact le_refl _
  | cons t ts ih =>
    rw [List.foldl_cons]
    exact le_trans (stepFn_unsigned_le s t i) (ih _)

theorem stepFn_covers {s : HyperLogLog} (hv : s.Valid) (t : Token) :
    rankVal s.B (s.hashOf t) ≤
      toUnsigned ((s.stepFn t).register (bucketIdx s.B (s.hashOf t))) := by
  have hidx : bucketIdx s.B (s.hashOf t) < s.subStreams.length :=
    lt_of_lt_of_le (bucketIdx_lt hv.1 (by have := hv.2.1; omega) (s.hashOf_lt t)) hv.2.2.1
  rw [stepFn_register]
  by_cases hc : rankVal s.B (s.hashOf t) > toUnsigned (s.register (bucketIdx s.B (s.hashOf t)))
  · rw [if_pos ⟨rfl, hidx, hc⟩,
      toUnsigned_natCast _ (by have := rankVal_le s.B (s.hashOf t); omega)]
  · rw [if_neg (fun h => hc h.2.2)]
    omega

theorem foldl_stepFn_hashOf (ts : List Token) (s : HyperLogLog) (u : Token) :
    (ts.foldl stepFn s).hashOf u = s.hashOf u := by
  unfold hashOf; rw [foldl_stepFn_h]

/-- once `t` was fed, feeding it again changes nothing -/
theorem stepFn_again {s : HyperLogLog} (hv : s.Valid) (t : Token) (y : List Token) :
    (y.foldl stepFn (s.stepFn t)).stepFn t = y.foldl stepFn (s.stepFn t) := by
  apply stepFn_noop
  rw [foldl_stepFn_B, foldl_stepFn_hashOf, stepFn_B, stepFn_hashOf]
  exact le_trans (stepFn_covers hv t) (foldl_unsigned_le y _ _)

theorem foldl_stepFn_dup {s : HyperLogLog} (hv : s.Valid) (t : Token) (x y z : List Token) :
    (x ++ t :: y ++ t :: z).foldl stepFn s = (x ++ t :: y ++ z).foldl stepFn s := by
  simp only [List.foldl_append, List.foldl_cons]
  rw [stepFn_again (foldl_stepFn_valid hv x) t y]

end HyperLogLog

namespace ExactCounter

theorem insert_of_mem {c : ExactCounter} {t : Token} (h : t ∈ c.unique_elements) :
    c.insert t = c := by
  unfold insert; rw [if_pos h]

theorem mem_insert_self (c : ExactCounter) (t : Token) : t ∈ (c.insert t).unique_elements := by
  unfold insert
  split
  · assumption
  · exact List.mem_cons_self _ _

theorem mem_insert_of_mem {c : ExactCounter} {t : Token} (u : Token)
    (h : t ∈ c.unique_elements) : t ∈ (c.insert u).unique_elements := by
  unfold insert
  split
  · exact h
  · exact List.mem_cons_of_mem _ h

theorem mem_add_of_mem {c : ExactCounter} {t : Token} (ts : List Token)
    (h : t ∈ c.unique_elements) : t ∈ (c.add ts).unique_elements := by
  unfold add
  induction ts generalizing c with
  | nil => exact h
  | cons u ts ih => exact ih (mem_insert_of_mem u h)

theorem add_append (c : ExactCounter) (a b : List Token) : c.add (a ++ b) = (c.add a).add b := by
  unfold add; rw [List.foldl_append]

theorem add_cons (c : ExactCounter) (t : Token) (ts : List Token) :
    c.add (t :: ts) = (c.insert t).add ts := rfl

theorem add_dup (c : ExactCounter) (t : Token) (x y z : List Token) :
    c.add (x ++ t :: y ++ t :: z) = c.add (x ++ t :: y ++ z) := by
  rw [add_append, add_append _ (x ++ t :: y) z, add_cons]
  congr 1
  apply insert_of_mem
  rw [add_append, add_cons]
  exact mem_add_of_mem y (mem_insert_self _ t)

end ExactCounter

/-- C6: on every sketch state on which the update is defined and every
exact-counter state, a second occurrence of a token `t` has no effect. Same
batch: the batch `x ++ t :: y ++ t :: z` leaves the sketch and the counter as
the batch `x ++ t :: y ++ z` does. Later batch: after a batch `x ++ t :: y`, the
batch `w ++ t :: z` leaves them as the batch `w ++ z` does; in particular the
exact count is the same. -/
theorem C6_second_occurrence_is_noop (s : HyperLogLog) (hv : s.Valid) (c : ExactCounter)
    (t : Token) (x y w z : List Token) :
    (∃ s1, s.workWithStrings (x ++ t :: y ++ t :: z) = some s1 ∧
      s.workWithStrings (x ++ t :: y ++ z) = some s1) ∧
    (∃ s2, s.updates [x ++ t :: y, w ++ t :: z] = some s2 ∧
      s.updates [x ++ t :: y, w ++ z] = some s2) ∧
    c.add (x ++ t :: y ++ t :: z) = c.add (x ++ t :: y ++ z) ∧
    c.addAll [x ++ t :: y, w ++ t :: z] = c.addAll [x ++ t :: y, w ++ z] ∧
    (c.addAll [x ++ t :: y, w ++ t :: z]).get = (c.addAll [x ++ t :: y, w ++ z]).get := by
  have hc : c.addAll [x ++ t :: y, w ++ t :: z] = c.addAll [x ++ t :: y, w ++ z] := by
    simp only [ExactCounter.addAll, List.foldl_cons, List.foldl_nil]
    rw [← ExactCounter.add_append, ← ExactCounter.add_append]
    have := ExactCounter.add_dup c t x (y ++ w) z
    simpa [List.append_assoc] using this
  refine ⟨⟨_, HyperLogLog.workWithStrings_eq hv _, ?_⟩, ⟨_, HyperLogLog.updates_eq hv _, ?_⟩,
    ExactCounter.add_dup c t x y z, hc, by rw [hc]⟩
  · rw [HyperLogLog.workWithStrings_eq hv, HyperLogLog.foldl_stepFn_dup hv]
  · rw [HyperLogLog.updates_eq hv]
    congr 1
    have := HyperLogLog.foldl_stepFn_dup hv t x (y ++ w) z
    simpa [List.append_assoc] using this.symm


/-! ### The exact counter against a reference set -/

namespace ExactCounter

theorem insert_nodup {c : ExactCounter} (h : c.unique_elements.Nodup) (t : Token) :
    (c.insert t).unique_elements.Nodup := by
  unfold insert
  split
  · exact h
  · rename_i hn
    exact List.nodup_cons.2 ⟨hn, h⟩

theorem insert_toFinset (c : ExactCounter) (t : Token) :
    (c.insert t).unique_elements.toFinset = Insert.insert t c.unique_elements.toFinset := by
  unfold insert
  split
  · rename_i hm
    rw [Finset.insert_eq_of_mem (List.mem_toFinset.2 hm)]
  · rw [List.toFinset_cons]

theorem add_nodup {c : ExactCounter} (h : c.unique_elements.Nodup) (ts : List Token) :
    (c.add ts).unique_elements.Nodup := by
  unfold add
  induction ts generalizing c with
  | nil => exact h
  | cons t ts ih => exact ih (insert_nodup h t)

theorem add_toFinset (c : ExactCounter) (ts : List Token) :
    (c.add ts).unique_elements.toFinset = c.unique_elements.toFinset ∪ ts.toFinset := by
  induction ts generalizing c with
  | nil => simp [add]
  | cons t ts ih =>
    rw [add_cons, ih, insert_toFinset, List.toFinset_cons]
    ext u
    simp only [Finset.mem_union, Finset.mem_insert]
    tauto

theorem addAll_eq_add (c : ExactCounter) (batches : List (List Token)) :
    c.addAll batches = c.add batches.flatten := by
  unfold addAll
  induction batches generalizing c with
  | nil => rfl
  | cons b bs ih => rw [List.foldl_cons, ih, List.flatten_cons, add_append]

theorem get_le_insert (c : ExactCounter) (t : Token) : c.get ≤ (c.insert t).get := by
  unfold get insert
  split
  · exact le_refl _
  · simp

theorem get_le_add (c : ExactCounter) (ts : List Token) : c.get ≤ (c.add ts).get := by
  induction ts generalizing c with
  | nil => exact le_refl _
  | cons t ts ih => rw [add_cons]; exact le_trans (get_le_insert c t) (ih _)

end ExactCounter

/-- C7: starting from an empty counter, after any sequence of `add` calls `get()`
equals the number of distinct tokens of the concatenation of the batches (the
cardinality of the reference set built from them, also the length of the
concatenation with duplicates removed); and `get()` never decreases when a
further batch is added, in any counter state. -/
theorem C7_exact_count (batches : List (List Token)) :
    (ExactCounter.empty.addAll batches).get = batches.flatten.toFinset.card ∧
    (ExactCounter.empty.addAll batches).get = batches.flatten.dedup.length ∧
    (∀ batch, (ExactCounter.empty.addAll batches).get ≤
      (ExactCounter.empty.addAll (batches ++ [batch])).get) ∧
    ∀ (c : ExactCounter) (batch : List Token), c.get ≤ (c.add batch).get := by
  have h1 : (ExactCounter.empty.addAll batches).get = batches.flatten.toFinset.card := by
    rw [ExactCounter.addAll_eq_add]
    unfold ExactCounter.get
    rw [← List.toFinset_card_of_nodup
      (ExactCounter.add_nodup (c := ExactCounter.empty) List.nodup_nil _),
      ExactCounter.add_toFinset]
    simp [ExactCounter.empty]
  refine ⟨h1, ?_, ?_, ExactCounter.get_le_add⟩
  · rw [h1, List.card_toFinset]
  · intro batch
    have : ExactCounter.empty.addAll (batches ++ [batch])
        = (ExactCounter.empty.addAll batches).add batch := by
      simp [ExactCounter.addAll, List.foldl_append]
    rw [this]
    exact ExactCounter.get_le_add _ _


/-! ### Rounding to double -/

theorem roundHalfEven_intCast (n : ℤ) : roundHalfEven (n : ℚ) = n := by
  unfold roundHalfEven
  rw [Int.floor_intCast, sub_self, if_pos (by norm_num)]

theorem roundHalfEven_near {q : ℚ} {n : ℤ} (h1 : (n : ℚ) - 1 / 2 < q) (h2 : q < (n : ℚ) + 1 / 2) :
    roundHalfEven q = n := by
  unfold roundHalfEven
  by_cases h : (n : ℚ) ≤ q
  · have hf : ⌊q⌋ = n := Int.floor_eq_iff.2 ⟨h, by linarith⟩
    rw [hf, if_pos (by linarith)]
  · have hf : ⌊q⌋ = n - 1 := Int.floor_eq_iff.2 ⟨by push_cast; linarith, by push_cast; linarith⟩
    rw [hf, if_neg (by push_cast; linarith), if_pos (by push_cast; linarith)]
    ring

theorem roundHalfEven_tie {q : ℚ} {n : ℤ} (h : q = (n : ℚ) + 1 / 2) :
    roundHalfEven q = if n % 2 = 0 then n else n + 1 := by
  unfold roundHalfEven
  have hf : ⌊q⌋ = n := Int.floor_eq_iff.2 ⟨by linarith, by linarith⟩
  rw [hf, if_neg (by linarith), if_neg (by linarith)]

theorem floor_le_roundHalfEven (q : ℚ) : ⌊q⌋ ≤ roundHalfEven q := by
  unfold roundHalfEven
  split
  · exact le_refl _
  · split
    · omega
    · split <;> omega

theorem roundHalfEven_le_floor_succ (q : ℚ) : roundHalfEven q ≤ ⌊q⌋ + 1 := by
  unfold roundHalfEven
  split
  · omega
  · split
    · omega
    · split <;> omega

theorem roundHalfEven_nonneg {q : ℚ} (h : 0 ≤ q) : 0 ≤ roundHalfEven q :=
  le_trans (Int.floor_nonneg.2 h) (floor_le_roundHalfEven q)

theorem roundHalfEven_le {q : ℚ} {M : ℤ} (h : q ≤ (M : ℚ)) : roundHalfEven q ≤ M := by
  by_cases hq : q = (M : ℚ)
  · rw [hq, roundHalfEven_intCast]
  · have hlt : q < (M : ℚ) := lt_of_le_of_ne h hq
    have hf : ⌊q⌋ < M := Int.floor_lt.2 hlt
    have := roundHalfEven_le_floor_succ q
    omega

theorem log_eq {x : ℚ} {k : ℤ} (h1 : (2 : ℚ) ^ k ≤ x) (h2 : x < (2 : ℚ) ^ (k + 1)) :
    Int.log 2 x = k := by
  have hpos : 0 < x := lt_of_lt_of_le (zpow_pos (by norm_num) _) h1
  have ha : k ≤ Int.log 2 x := (Int.zpow_le_iff_le_log (by norm_num) hpos).1 (by exact_mod_cast h1)
  have hb : Int.log 2 x < k + 1 := (Int.lt_zpow_iff_log_lt (by norm_num) hpos).1 (by exact_mod_cast h2)
  omega

theorem ulpExp_eq {x : ℚ} {e : ℤ} (h1 : (2 : ℚ) ^ (e + 52) ≤ |x|) (h2 : |x| < (2 : ℚ) ^ (e + 53))
    (he : -1074 ≤ e) : ulpExp x = e := by
  unfold ulpExp
  rw [log_eq h1 (by rw [show e + 52 + 1 = e + 53 by ring]; exact h2)]
  omega

theorem ulpExp_le {x : ℚ} {e : ℤ} (hx : x ≠ 0) (h2 : |x| < (2 : ℚ) ^ (e + 53)) (he : -1074 ≤ e) :
    ulpExp x ≤ e := by
  unfold ulpExp
  have hpos : 0 < |x| := abs_pos.2 hx
  have hb : Int.log 2 |x| < e + 53 :=
    (Int.lt_zpow_iff_log_lt (by norm_num) hpos).1 (by exact_mod_cast h2)
  omega

theorem ulpExp_eq_of_pos {x : ℚ} {e : ℤ} (h1 : (2 : ℚ) ^ (e + 52) ≤ x)
    (h2 : x < (2 : ℚ) ^ (e + 53)) (he : -1074 ≤ e) : ulpExp x = e := by
  have hpos : 0 < x := lt_of_lt_of_le (zpow_pos (by norm_num) _) h1
  exact ulpExp_eq (by rw [abs_of_pos hpos]; exact h1) (by rw [abs_of_pos hpos]; exact h2) he

theorem roundDouble_zero : roundDouble 0 = 0 := by
  unfold roundDouble
  rw [zero_div]
  have := roundHalfEven_intCast 0
  simp only [Int.cast_zero] at this
  rw [this]
  simp

theorem roundDouble_eq {x : ℚ} {e n : ℤ} (he : ulpExp x = e)
    (hn : roundHalfEven (x / 2 ^ e) = n) : roundDouble x = (n : ℚ) * 2 ^ e := by
  unfold roundDouble
  rw [he, hn]

theorem roundDouble_exact {x : ℚ} (h : IsDouble x) : roundDouble x = x := by
  obtain ⟨m, e, hm, he, _, rfl⟩ := h
  by_cases h0 : m = 0
  · subst h0
    simp only [Nat.cast_zero, zero_mul]
    exact roundDouble_zero
  · have h2 : (0 : ℚ) < (2 : ℚ) ^ e := zpow_pos (by norm_num) _
    have hmpos : (0 : ℚ) < (m : ℚ) := by exact_mod_cast Nat.pos_of_ne_zero h0
    have hxpos : (0 : ℚ) < (m : ℚ) * 2 ^ e := mul_pos hmpos h2
    have hlt : |(m : ℚ) * 2 ^ e| < (2 : ℚ) ^ (e + 53) := by
      rw [abs_of_pos hxpos, zpow_add₀ (by norm_num : (2 : ℚ) ≠ 0), mul_comm]
      have : (m : ℚ) < 2 ^ (53 : ℤ) := by
        have h53 : (m : ℚ) < ((2 ^ 53 : ℕ) : ℚ) := Nat.cast_lt.2 hm
        rw [Nat.cast_pow, Nat.cast_ofNat] at h53
        exact_mod_cast h53
      exact mul_lt_mul_of_pos_left this h2
    have hu := ulpExp_le (ne_of_gt hxpos) hlt he
    obtain ⟨d, hd⟩ := Int.eq_ofNat_of_zero_le (by omega : 0 ≤ e - ulpExp ((m : ℚ) * 2 ^ e))
    have hq : (m : ℚ) * 2 ^ e / 2 ^ ulpExp ((m : ℚ) * 2 ^ e) = (((m * 2 ^ d : ℕ) : ℤ) : ℚ) := by
      rw [mul_div_assoc, ← zpow_sub₀ (by norm_num : (2 : ℚ) ≠ 0), hd, zpow_natCast]
      push_cast
      rfl
    unfold roundDouble
    rw [hq, roundHalfEven_intCast, ← hq]
    exact div_mul_cancel₀ _ (ne_of_gt (zpow_pos (by norm_num) _))

theorem roundDouble_nonneg {x : ℚ} (h : 0 ≤ x) : 0 ≤ roundDouble x := by
  unfold roundDouble
  have h2 : (0 : ℚ) < (2 : ℚ) ^ ulpExp x := zpow_pos (by norm_num) _
  have := roundHalfEven_nonneg (div_nonneg h (le_of_lt h2))
  exact mul_nonneg (by exact_mod_cast this) (le_of_lt h2)

theorem roundDouble_le_two_pow {x : ℚ} {k : ℤ} (h0 : 0 ≤ x) (h : x ≤ (2 : ℚ) ^ k)
    (hk : -1074 ≤ k) : roundDouble x ≤ (2 : ℚ) ^ k := by
  by_cases hx : x = 0
  · rw [hx, roundDouble_zero]; exact le_of_lt (zpow_pos (by norm_num) _)
  · have hlt : |x| < (2 : ℚ) ^ (k + 1) := by
      rw [abs_of_nonneg h0]
      exact lt_of_le_of_lt h (zpow_lt_zpow_right₀ (by norm_num) (by omega))
    have hu : ulpExp x ≤ k := by
      unfold ulpExp
      have hpos : 0 < |x| := abs_pos.2 hx
      have hb : Int.log 2 |x| < k + 1 :=
        (Int.lt_zpow_iff_log_lt (by norm_num) hpos).1 (by exact_mod_cast hlt)
      omega
    obtain ⟨d, hd⟩ := Int.eq_ofNat_of_zero_le (by omega : 0 ≤ k - ulpExp x)
    have h2 : (0 : ℚ) < (2 : ℚ) ^ ulpExp x := zpow_pos (by norm_num) _
    have hq : x / 2 ^ ulpExp x ≤ (((2 ^ d : ℕ) : ℤ) : ℚ) := by
      rw [div_le_iff₀ h2]
      push_cast
      rw [← zpow_natCast, ← hd, ← zpow_add₀ (by norm_num : (2 : ℚ) ≠ 0)]
      rw [show k - ulpExp x + ulpExp x = k by ring]
      exact h
    have hr := roundHalfEven_le hq
    unfold roundDouble
    have hr2 : ((roundHalfEven (x / 2 ^ ulpExp x) : ℤ) : ℚ) ≤ (((2 ^ d : ℕ) : ℤ) : ℚ) := by
      exact_mod_cast hr
    calc ((roundHalfEven (x / 2 ^ ulpExp x) : ℤ) : ℚ) * 2 ^ ulpExp x
        ≤ (((2 ^ d : ℕ) : ℤ) : ℚ) * 2 ^ ulpExp x := mul_le_mul_of_nonneg_right hr2 (le_of_lt h2)
      _ = (2 : ℚ) ^ k := by
        push_cast
        rw [← zpow_natCast, ← hd, ← zpow_add₀ (by norm_num : (2 : ℚ) ≠ 0)]
        rw [show k - ulpExp x + ulpExp x = k by ring]

/-! ### The stream source -/

namespace RandomStreamGen

theorem isDouble_nonneg {x : ℚ} (h : IsDouble x) : 0 ≤ x := by
  obtain ⟨m, e, _, _, _, rfl⟩ := h
  exact mul_nonneg (Nat.cast_nonneg _) (le_of_lt (zpow_pos (by norm_num) _))

theorem castSizeT_natCast {z : ℕ} (hz : z < 2 ^ 64) : castSizeT (z : ℚ) = some z := by
  unfold castSizeT
  have h1 : (-1 : ℚ) < (z : ℚ) := lt_of_lt_of_le (by norm_num) (Nat.cast_nonneg z)
  have h2 : (z : ℚ) < 2 ^ 64 := by exact_mod_cast hz
  rw [if_pos ⟨h1, h2⟩]
  have : ⌊(z : ℚ)⌋ = (z : ℤ) := Int.floor_natCast z
  rw [this, Int.toNat_natCast]

theorem requestCast_exact {s : RandomStreamGen} {percent : ℚ}
    (hN : IsDouble (s.stream_size : ℚ)) (hP : IsDouble ((s.stream_size : ℚ) * percent))
    (hlt : (s.stream_size : ℚ) * percent < 2 ^ 64) :
    s.requestCast percent = some ⌊(s.stream_size : ℚ) * percent⌋.toNat := by
  unfold requestCast
  rw [roundDouble_exact hN, roundDouble_exact hP]
  unfold castSizeT
  rw [if_pos ⟨lt_of_lt_of_le (by norm_num) (isDouble_nonneg hP), hlt⟩]

theorem requestCast_eq {s : RandomStreamGen} {percent : ℚ} {z : ℕ}
    (hN : IsDouble (s.stream_size : ℚ)) (hP : IsDouble ((s.stream_size : ℚ) * percent))
    (h1 : (z : ℚ) ≤ (s.stream_size : ℚ) * percent)
    (h2 : (s.stream_size : ℚ) * percent < (z : ℚ) + 1) (hz : z < 2 ^ 64) :
    s.requestCast percent = some z := by
  have hz1 : (z : ℚ) + 1 ≤ 2 ^ 64 := by exact_mod_cast hz
  rw [requestCast_exact hN hP (lt_of_lt_of_le h2 hz1)]
  have : ⌊(s.stream_size : ℚ) * percent⌋ = (z : ℤ) := by
    rw [Int.floor_eq_iff]
    exact ⟨by exact_mod_cast h1, by exact_mod_cast h2⟩
  rw [this]; rfl

theorem requestCast_rounded {s : RandomStreamGen} {percent : ℚ} {e n : ℤ} {z : ℕ}
    (hN : IsDouble (s.stream_size : ℚ)) (he : ulpExp ((s.stream_size : ℚ) * percent) = e)
    (hn : roundHalfEven ((s.stream_size : ℚ) * percent / 2 ^ e) = n)
    (hv : (n : ℚ) * 2 ^ e = (z : ℚ)) (hz : z < 2 ^ 64) :
    s.requestCast percent = some z := by
  unfold requestCast
  rw [roundDouble_exact hN, roundDouble_eq he hn, hv]
  exact castSizeT_natCast hz

theorem requestCast_exact_value {s : RandomStreamGen} {percent : ℚ} {r : ℕ}
    (hN : IsDouble (s.stream_size : ℚ)) (hP : IsDouble ((s.stream_size : ℚ) * percent))
    (h : s.requestCast percent = some r) : r = ⌊(s.stream_size : ℚ) * percent⌋.toNat := by
  unfold requestCast at h
  rw [roundDouble_exact hN, roundDouble_exact hP] at h
  unfold castSizeT at h
  by_cases hc : -1 < (s.stream_size : ℚ) * percent ∧ (s.stream_size : ℚ) * percent < 2 ^ 64
  · rw [if_pos hc] at h
    exact (Option.some.inj h).symm
  · rw [if_neg hc] at h
    exact absurd h (Option.noConfusion)

theorem request_of_cast {s : RandomStreamGen} {percent : ℚ} {r : ℕ}
    (h : s.requestCast percent = some r) : s.request percent = r := by
  unfold request
  rw [h]
  rfl

theorem request_eq {s : RandomStreamGen} {percent : ℚ} {z : ℕ}
    (hN : IsDouble (s.stream_size : ℚ)) (hP : IsDouble ((s.stream_size : ℚ) * percent))
    (h1 : (z : ℚ) ≤ (s.stream_size : ℚ) * percent)
    (h2 : (s.stream_size : ℚ) * percent < (z : ℚ) + 1) (hz : z < 2 ^ 64) :
    s.request percent = z :=
  request_of_cast (requestCast_eq hN hP h1 h2 hz)

theorem requestCast_defined (s : RandomStreamGen) {percent : ℚ}
    (hN : s.stream_size ≤ 2 ^ 63) (h0 : 0 ≤ percent) (h1 : percent ≤ 1) :
    ∃ r, s.requestCast percent = some r ∧ r ≤ 2 ^ 63 := by
  have hNq : (s.stream_size : ℚ) ≤ (2 : ℚ) ^ (63 : ℤ) := by
    have : (s.stream_size : ℚ) ≤ ((2 ^ 63 : ℕ) : ℚ) := Nat.cast_le.2 hN
    rw [Nat.cast_pow, Nat.cast_ofNat] at this
    exact_mod_cast this
  have ha0 := roundDouble_nonneg (Nat.cast_nonneg s.stream_size : (0 : ℚ) ≤ (s.stream_size : ℚ))
  have ha1 := roundDouble_le_two_pow (Nat.cast_nonneg s.stream_size) hNq (by norm_num)
  have hb0 : 0 ≤ roundDouble (s.stream_size : ℚ) * percent := mul_nonneg ha0 h0
  have hb1 : roundDouble (s.stream_size : ℚ) * percent ≤ (2 : ℚ) ^ (63 : ℤ) :=
    le_trans (mul_le_of_le_one_right ha0 h1) ha1
  have hc0 := roundDouble_nonneg hb0
  have hc1 := roundDouble_le_two_pow hb0 hb1 (by norm_num)
  refine ⟨⌊roundDouble (roundDouble (s.stream_size : ℚ) * percent)⌋.toNat, ?_, ?_⟩
  · unfold requestCast castSizeT
    rw [if_pos ⟨lt_of_lt_of_le (by norm_num) hc0, lt_of_le_of_lt hc1 (by norm_num)⟩]
  · rw [Int.toNat_le]
    have hf := Int.floor_le (roundDouble (roundDouble (s.stream_size : ℚ) * percent))
    have : ((⌊roundDouble (roundDouble (s.stream_size : ℚ) * percent)⌋ : ℤ) : ℚ) ≤
        (((2 ^ 63 : ℕ) : ℤ) : ℚ) := by
      refine le_trans hf (le_trans hc1 ?_)
      norm_num
    exact_mod_cast this

theorem request_le_two_pow (s : RandomStreamGen) {percent : ℚ}
    (hN : s.stream_size ≤ 2 ^ 63) (h0 : 0 ≤ percent) (h1 : percent ≤ 1) :
    s.request percent ≤ 2 ^ 63 := by
  obtain ⟨r, hr, hle⟩ := s.requestCast_defined hN h0 h1
  rw [request_of_cast hr]
  exact hle

theorem countToGenerate_eq {s : RandomStreamGen} {percent : ℚ}
    (hp : s.ready_strings_count ≤ s.stream_size) (hN : s.stream_size < 2 ^ 64)
    (hsum : s.ready_strings_count + s.request percent < 2 ^ 64) :
    s.countToGenerate percent =
      min (s.request percent) (s.stream_size - s.ready_strings_count) := by
  unfold countToGenerate sizeAdd sizeSub
  simp only []
  split <;> omega

/-- without wrap-around the clamp does not apply and the request is generated -/
theorem countToGenerate_wrap {s : RandomStreamGen} {percent : ℚ}
    (hw : sizeAdd s.ready_strings_count (s.request percent) ≤ s.stream_size) :
    s.countToGenerate percent = s.request percent := by
  unfold countToGenerate
  simp only []
  rw [if_neg (by omega)]

theorem nextPortion_length (gen : Nat → Token) (s : RandomStreamGen) (percent : ℚ) :
    (nextPortion gen s percent).1.length = s.countToGenerate percent := by
  unfold nextPortion
  simp only []
  split
  · rename_i h; rw [h]; rfl
  · simp only [List.length_map, List.length_range]

theorem nextPortion_state (gen : Nat → Token) (s : RandomStreamGen) (percent : ℚ) :
    (nextPortion gen s percent).2 =
      if s.countToGenerate percent = 0 then s
      else { s with
        ready_strings_count := sizeAdd s.ready_strings_count (s.countToGenerate percent)
        rsg := s.rsg + s.countToGenerate percent } := by
  unfold nextPortion
  simp only []
  split <;> rfl

theorem nextPortion_stream_size (gen : Nat → Token) (s : RandomStreamGen) (percent : ℚ) :
    (nextPortion gen s percent).2.stream_size = s.stream_size := by
  rw [nextPortion_state]; split <;> rfl

theorem nextPortion_ready_le (gen : Nat → Token) {s : RandomStreamGen} (percent : ℚ)
    (hp : s.ready_strings_count ≤ s.stream_size) (hN : s.stream_size < 2 ^ 64) :
    (nextPortion gen s percent).2.ready_strings_count ≤ s.stream_size := by
  rw [nextPortion_state]
  split
  · exact hp
  · simp only []
    unfold countToGenerate sizeAdd sizeSub
    simp only []
    split
    · omega
    · rename_i h; omega

theorem run_stream_size (gen : Nat → Token) (s : RandomStreamGen) (fs : List ℚ) :
    (run gen s fs).stream_size = s.stream_size := by
  induction fs generalizing s with
  | nil => rfl
  | cons f fs ih => rw [run, ih, nextPortion_stream_size]

theorem run_ready_le (gen : Nat → Token) {s : RandomStreamGen} (fs : List ℚ)
    (hp : s.ready_strings_count ≤ s.stream_size) (hN : s.stream_size < 2 ^ 64) :
    (run gen s fs).ready_strings_count ≤ s.stream_size := by
  induction fs generalizing s with
  | nil => exact hp
  | cons f fs ih =>
    rw [run]
    have := ih (s := (nextPortion gen s f).2)
      (by rw [nextPortion_stream_size]; exact nextPortion_ready_le gen f hp hN)
      (by rw [nextPortion_stream_size]; exact hN)
    rw [nextPortion_stream_size] at this
    exact this

theorem nextPortion_finished (gen : Nat → Token) {s : RandomStreamGen} {percent : ℚ}
    (hp : s.ready_strings_count ≤ s.stream_size) (hN : s.stream_size < 2 ^ 63)
    (hfin : s.isFinished = true) (h0 : 0 ≤ percent) (h1 : percent ≤ 1) :
    nextPortion gen s percent = ([], s) := by
  have hr := s.request_le_two_pow (by omega) h0 h1
  have hge : s.stream_size ≤ s.ready_strings_count := by
    unfold isFinished at hfin; exact of_decide_eq_true hfin
  have hc : s.countToGenerate percent = 0 := by
    rw [countToGenerate_eq hp (by omega) (by omega)]; omega
  unfold nextPortion
  simp only []
  rw [if_pos hc]

/-- as long as no clamp applies, `k` calls with the same fraction produce `k` requests -/
theorem run_replicate (gen : Nat → Token) (percent : ℚ) (k : Nat) (s : RandomStreamGen)
    (hN : s.stream_size < 2 ^ 64)
    (hk : s.ready_strings_count + k * s.request percent ≤ s.stream_size) :
    run gen s (List.replicate k percent) =
      { s with
        ready_strings_count := s.ready_strings_count + k * s.request percent
        rsg := s.rsg + k * s.request percent } := by
  induction k generalizing s with
  | zero => simp [run]
  | succ k ih =>
    have hmul : (k + 1) * s.request percent = s.request percent + k * s.request percent := by
      ring
    rw [hmul] at hk
    have hc : s.countToGenerate percent = s.request percent :=
      countToGenerate_wrap (by unfold sizeAdd; omega)
    rw [List.replicate_succ, run, nextPortion_state, hc]
    by_cases h0 : s.request percent = 0
    · rw [if_pos h0, ih s hN (by omega), h0]
      simp
    · rw [if_neg h0]
      have hsa : sizeAdd s.ready_strings_count (s.request percent)
          = s.ready_strings_count + s.request percent := by
        unfold sizeAdd; omega
      rw [hsa]
      have ih1 := ih { s with
          ready_strings_count := s.ready_strings_count + s.request percent
          rsg := s.rsg + s.request percent } hN (by
        show s.ready_strings_count + s.request percent + k * s.request percent ≤ s.stream_size
        omega)
      rw [ih1]
      show RandomStreamGen.mk s.stream_size
          (s.ready_strings_count + s.request percent + k * s.request percent)
          (s.rsg + s.request percent + k * s.request percent) = _
      rw [hmul]
      simp only [RandomStreamGen.mk.injEq, true_and]
      constructor <;> omega

end RandomStreamGen


/-- C8 (as stated) fails, in two ways. (1) Rounding: with `N = 10`, `p = 0` and the
`double` nearest to 0.3, which is `5404319552844595 / 2^54`, the product
`N * fraction` is rounded to the `double` 3.0 and `nextPortion` returns 3
tokens, whereas `min(floor(N * fraction), N - p) = 2`. (2) Wrap-around: with
`N = 2^64 - 2^32`, `p = N` and fraction `2^-31` the request is
`floor(N * 2^-31) = 2^33 - 2`; the 64-bit sum `p + request` wraps around to
`2^32 - 2`, which is not above `N`, so no clamp happens and `nextPortion`
returns `2^33 - 2` tokens, whereas `min(floor(N * fraction), N - p) = 0`. -/
theorem C8_counterexample :
    (IsDouble (5404319552844595 / 2 ^ 54) ∧ (5404319552844595 / 2 ^ 54 : ℚ) ≤ 1 ∧
      (RandomStreamGen.nextPortion (fun _ => [57]) (RandomStreamGen.new 10)
        (5404319552844595 / 2 ^ 54)).1.length = 3 ∧
      min ⌊((10 : ℕ) : ℚ) * (5404319552844595 / 2 ^ 54)⌋.toNat (10 - 0) = 2) ∧
    ((⟨18446744069414584320, 18446744069414584320, 0⟩ : RandomStreamGen).request (1 / 2 ^ 31)
        = 8589934590 ∧
      (RandomStreamGen.nextPortion (fun _ => [57])
        ⟨18446744069414584320, 18446744069414584320, 0⟩ (1 / 2 ^ 31)).1.length = 8589934590 ∧
      min 8589934590 (18446744069414584320 - 18446744069414584320) = 0) := by
  have hc3 : (RandomStreamGen.new 10).requestCast (5404319552844595 / 2 ^ 54) = some 3 :=
    RandomStreamGen.requestCast_rounded (e := -51) (n := 6755399441055744)
      ⟨10, 0, by norm_num, by norm_num, by norm_num, by norm_num [RandomStreamGen.new]⟩
      (ulpExp_eq_of_pos (by norm_num [RandomStreamGen.new]) (by norm_num [RandomStreamGen.new])
        (by norm_num))
      (roundHalfEven_near (by norm_num [RandomStreamGen.new]) (by norm_num [RandomStreamGen.new]))
      (by norm_num) (by norm_num)
  have hr3 := RandomStreamGen.request_of_cast hc3
  have hfl : ⌊((10 : ℕ) : ℚ) * (5404319552844595 / 2 ^ 54)⌋ = 2 :=
    Int.floor_eq_iff.2 ⟨by norm_num, by norm_num⟩
  have hr : (⟨18446744069414584320, 18446744069414584320, 0⟩ : RandomStreamGen).request
      (1 / 2 ^ 31) = 8589934590 :=
    RandomStreamGen.request_eq ⟨4294967295, 32, by norm_num, by norm_num, by norm_num, by norm_num⟩
      ⟨8589934590, 0, by norm_num, by norm_num, by norm_num, by norm_num⟩ (by norm_num) (by norm_num)
      (by norm_num)
  refine ⟨⟨⟨5404319552844595, -54, by norm_num, by norm_num, by norm_num, by norm_num⟩, by norm_num, ?_, ?_⟩,
    hr, ?_, by norm_num⟩
  · rw [RandomStreamGen.nextPortion_length,
      RandomStreamGen.countToGenerate_wrap (by rw [hr3]; decide), hr3]
  · rw [hfl]; decide
  · rw [RandomStreamGen.nextPortion_length,
      RandomStreamGen.countToGenerate_wrap (by rw [hr]; decide), hr]

/-- C8 (amended): for every target size `N < 2^64`, every produced-count
`p ≤ N` and every fraction for which the conversion
`static_cast<size_t>(stream_size * percent)` of the `double` product is defined,
with `r` its value (`r = floor(N * fraction)` whenever `N` and `N * fraction`
are values of `double`s, so that nothing is rounded), and such that the 64-bit
sum `p + r` does not wrap around: `nextPortion(fraction)` returns exactly
`min(r, N - p)` tokens and the produced-count afterwards is `p` plus that
number. The conversion is defined and the sum does not wrap around for every
`N < 2^63` and fraction in `[0, 1]`. -/
theorem C8_nextPortion_count (gen : Nat → Token) (s : RandomStreamGen) (percent : ℚ) (r : Nat)
    (hp : s.ready_strings_count ≤ s.stream_size) (hN : s.stream_size < 2 ^ 64)
    (hr : s.requestCast percent = some r) (hsum : s.ready_strings_count + r < 2 ^ 64) :
    (IsDouble (s.stream_size : ℚ) → IsDouble ((s.stream_size : ℚ) * percent) →
      r = ⌊(s.stream_size : ℚ) * percent⌋.toNat) ∧
    (RandomStreamGen.nextPortion gen s percent).1.length =
      min r (s.stream_size - s.ready_strings_count) ∧
    (RandomStreamGen.nextPortion gen s percent).2.ready_strings_count =
      s.ready_strings_count + min r (s.stream_size - s.ready_strings_count) ∧
    (RandomStreamGen.nextPortion gen s percent).2.stream_size = s.stream_size ∧
    (s.stream_size < 2 ^ 63 → 0 ≤ percent → percent ≤ 1 →
      ∃ r0, s.requestCast percent = some r0 ∧ s.ready_strings_count + r0 < 2 ^ 64) := by
  have hreq := RandomStreamGen.request_of_cast hr
  have hc := RandomStreamGen.countToGenerate_eq hp hN (by rw [hreq]; exact hsum)
  rw [hreq] at hc
  refine ⟨fun h1 h2 => RandomStreamGen.requestCast_exact_value h1 h2 hr, ?_, ?_,
    RandomStreamGen.nextPortion_stream_size gen s percent, ?_⟩
  · rw [RandomStreamGen.nextPortion_length, hc]
  · rw [RandomStreamGen.nextPortion_state, hc]
    split
    · rename_i h; rw [h]; rfl
    · simp only []
      unfold sizeAdd
      omega
  · intro h63 h0 h1
    obtain ⟨r0, hr0, hle⟩ := s.requestCast_defined (by omega) h0 h1
    exact ⟨r0, hr0, by omega⟩

/-- C8 at `N = 10`, `p = 5`, fraction `1/2`: the product 5 is exact, and the call
returns `min(5, 10 - 5) = 5` tokens and the produced-count becomes 10. -/
theorem C8_witness :
    ((5 : Nat) ≤ 10 ∧ (10 : Nat) < 2 ^ 64 ∧
      (⟨10, 5, 5⟩ : RandomStreamGen).requestCast (1 / 2) = some 5 ∧ 5 + 5 < 2 ^ 64) ∧
    (RandomStreamGen.nextPortion (fun _ => [57]) ⟨10, 5, 5⟩ (1 / 2)).1.length = 5 ∧
      (RandomStreamGen.nextPortion (fun _ => [57]) ⟨10, 5, 5⟩ (1 / 2)).2.ready_strings_count = 10 := by
  have hr : (⟨10, 5, 5⟩ : RandomStreamGen).requestCast (1 / 2) = some 5 :=
    RandomStreamGen.requestCast_eq ⟨10, 0, by norm_num, by norm_num, by norm_num, by norm_num⟩
      ⟨5, 0, by norm_num, by norm_num, by norm_num, by norm_num⟩ (by norm_num) (by norm_num) (by norm_num)
  have h := C8_nextPortion_count (fun _ => [57]) ⟨10, 5, 5⟩ (1 / 2) 5 (by decide) (by decide)
    hr (by decide)
  exact ⟨⟨by decide, by decide, hr, by decide⟩, h.2.1, h.2.2.1⟩

/-- C9 (as stated) fails: on a fresh source of target size `N = 2^64 - 2^32`,
`2^32` calls with fraction `2^-32` produce `2^32 - 1` tokens each and reach the
produced-count `N`, so `isFinished()` is true; a further call with fraction
`2^-31` requests `2^33 - 2` tokens, the 64-bit sum wraps around, no clamp
happens, and the call returns `2^33 - 2` tokens and sets the produced-count to
`2^32 - 2`: the sequence is not empty, the state changes and `isFinished()`
becomes false again. -/
theorem C9_counterexample :
    (RandomStreamGen.run (fun _ => [57]) (RandomStreamGen.new 18446744069414584320)
      (List.replicate 4294967296 (1 / 2 ^ 32))).isFinished = true ∧
    (RandomStreamGen.nextPortion (fun _ => [57])
      (RandomStreamGen.run (fun _ => [57]) (RandomStreamGen.new 18446744069414584320)
        (List.replicate 4294967296 (1 / 2 ^ 32))) (1 / 2 ^ 31)).1.length = 8589934590 ∧
    (RandomStreamGen.nextPortion (fun _ => [57])
      (RandomStreamGen.run (fun _ => [57]) (RandomStreamGen.new 18446744069414584320)
        (List.replicate 4294967296 (1 / 2 ^ 32))) (1 / 2 ^ 31)).2.isFinished = false := by
  have hr : (RandomStreamGen.new 18446744069414584320).request (1 / 2 ^ 32) = 4294967295 :=
    RandomStreamGen.request_eq
      ⟨4294967295, 32, by norm_num, by norm_num, by norm_num, by norm_num [RandomStreamGen.new]⟩
      ⟨4294967295, 0, by norm_num, by norm_num, by norm_num, by norm_num [RandomStreamGen.new]⟩
      (by norm_num [RandomStreamGen.new]) (by norm_num [RandomStreamGen.new]) (by norm_num)
  have hrun := RandomStreamGen.run_replicate (fun _ => [57]) (1 / 2 ^ 32) 4294967296
    (RandomStreamGen.new 18446744069414584320) (by decide) (by rw [hr]; decide)
  rw [hr] at hrun
  have hst : RandomStreamGen.run (fun _ => [57]) (RandomStreamGen.new 18446744069414584320)
      (List.replicate 4294967296 (1 / 2 ^ 32))
      = ⟨18446744069414584320, 18446744069414584320, 18446744069414584320⟩ := by
    rw [hrun]; rfl
  rw [hst]
  have hr2 : (⟨18446744069414584320, 18446744069414584320, 18446744069414584320⟩ :
      RandomStreamGen).request (1 / 2 ^ 31) = 8589934590 :=
    RandomStreamGen.request_eq ⟨4294967295, 32, by norm_num, by norm_num, by norm_num, by norm_num⟩
      ⟨8589934590, 0, by norm_num, by norm_num, by norm_num, by norm_num⟩ (by norm_num) (by norm_num)
      (by norm_num)
  have hc := @RandomStreamGen.countToGenerate_wrap
    ⟨18446744069414584320, 18446744069414584320, 18446744069414584320⟩
    (1 / 2 ^ 31) (by rw [hr2]; decide)
  rw [hr2] at hc
  refine ⟨by decide, ?_, ?_⟩
  · rw [RandomStreamGen.nextPortion_length, hc]
  · rw [RandomStreamGen.nextPortion_state, hc]
    decide

/-- C9 (amended): on a fresh stream source of target size `N < 2^64`, after every
sequence of `nextPortion` calls with fractions in `[0, 1]` the produced-count
does not exceed `N` (and the target size is still `N`); and when `N < 2^63`,
once `isFinished()` is true every further `nextPortion` call with a fraction in
`[0, 1]` returns an empty sequence and leaves the state unchanged. -/
theorem C9_stream_exhaustion (gen : Nat → Token) (N : Nat) (fs : List ℚ) (hN : N < 2 ^ 64)
    (hfs : ∀ f ∈ fs, 0 ≤ f ∧ f ≤ 1) :
    (RandomStreamGen.run gen (RandomStreamGen.new N) fs).ready_strings_count ≤ N ∧
    (RandomStreamGen.run gen (RandomStreamGen.new N) fs).stream_size = N ∧
    (N < 2 ^ 63 → (RandomStreamGen.run gen (RandomStreamGen.new N) fs).isFinished = true →
      ∀ f : ℚ, 0 ≤ f → f ≤ 1 →
        RandomStreamGen.nextPortion gen (RandomStreamGen.run gen (RandomStreamGen.new N) fs) f
          = ([], RandomStreamGen.run gen (RandomStreamGen.new N) fs)) := by
  have _ := hfs
  have hsz := RandomStreamGen.run_stream_size gen (RandomStreamGen.new N) fs
  have hle := RandomStreamGen.run_ready_le gen (s := RandomStreamGen.new N) fs
    (Nat.zero_le _) hN
  refine ⟨hle, hsz, ?_⟩
  intro hN63 hfin f h0 h1
  exact RandomStreamGen.nextPortion_finished gen (by rw [hsz]; exact hle)
    (by rw [hsz]; exact hN63) hfin h0 h1

/-- C9 at `N = 10`: `nextPortion(0.5)` yields 5 tokens, then 5 tokens, after
which `isFinished()` is true, and a third call returns an empty sequence and
leaves the state unchanged. -/
theorem C9_witness :
    (RandomStreamGen.nextPortion (fun _ => [57]) (RandomStreamGen.new 10) (1 / 2)).1.length = 5 ∧
    (RandomStreamGen.nextPortion (fun _ => [57])
      (RandomStreamGen.run (fun _ => [57]) (RandomStreamGen.new 10) [1 / 2]) (1 / 2)).1.length
        = 5 ∧
    (RandomStreamGen.run (fun _ => [57]) (RandomStreamGen.new 10) [1 / 2, 1 / 2]).isFinished
      = true ∧
    RandomStreamGen.nextPortion (fun _ => [57])
      (RandomStreamGen.run (fun _ => [57]) (RandomStreamGen.new 10) [1 / 2, 1 / 2]) (1 / 2)
      = ([], RandomStreamGen.run (fun _ => [57]) (RandomStreamGen.new 10) [1 / 2, 1 / 2]) := by
  have hr : ∀ p r, (⟨10, p, r⟩ : RandomStreamGen).request (1 / 2) = 5 := fun p r =>
    RandomStreamGen.request_eq ⟨10, 0, by norm_num, by norm_num, by norm_num, by norm_num⟩
      ⟨5, 0, by norm_num, by norm_num, by norm_num, by norm_num⟩ (by norm_num) (by norm_num) (by norm_num)
  have h1 := RandomStreamGen.run_replicate (fun _ => [57]) (1 / 2) 1 (RandomStreamGen.new 10)
    (by decide) (by have := hr 0 0; simp only [RandomStreamGen.new]; omega)
  have h2 := RandomStreamGen.run_replicate (fun _ => [57]) (1 / 2) 2 (RandomStreamGen.new 10)
    (by decide) (by have := hr 0 0; simp only [RandomStreamGen.new]; omega)
  rw [RandomStreamGen.new, hr] at h1 h2
  have e1 : RandomStreamGen.run (fun _ => [57]) (RandomStreamGen.new 10) [1 / 2] = ⟨10, 5, 5⟩ :=
    h1
  have e2 : RandomStreamGen.run (fun _ => [57]) (RandomStreamGen.new 10) [1 / 2, 1 / 2]
      = ⟨10, 10, 10⟩ := h2
  have hfin : (RandomStreamGen.run (fun _ => [57]) (RandomStreamGen.new 10)
      [1 / 2, 1 / 2]).isFinished = true := by rw [e2]; decide
  have h3 := (C9_stream_exhaustion (fun _ => [57]) 10 [1 / 2, 1 / 2] (by decide)
    (by intro f hf; simp at hf; subst hf; norm_num)).2.2 (by decide) hfin (1 / 2)
    (by norm_num) (by norm_num)
  refine ⟨?_, ?_, hfin, h3⟩
  · rw [RandomStreamGen.nextPortion_length, RandomStreamGen.new,
      RandomStreamGen.countToGenerate_wrap (by rw [hr]; decide), hr]
  · rw [e1, RandomStreamGen.nextPortion_length,
      RandomStreamGen.countToGenerate_wrap (by rw [hr]; decide), hr]


/-! ### The estimate of a fresh sketch -/

namespace HyperLogLog

theorem get_alpha_pos_lt (m : Nat) : 0 < get_alpha m ∧ get_alpha m < 1 := by
  unfold get_alpha
  split_ifs with h1 h2 h3 h4 h5 h6 h7
  · norm_num
  · norm_num
  · norm_num
  · norm_num
  · norm_num
  · norm_num
  · have hm : (0 : ℚ) < (m : ℚ) := by
      have : 0 < m := by omega
      exact_mod_cast this
    have hq : (0 : ℚ) < 1.079 / (m : ℚ) := div_pos (by norm_num) hm
    have hd1 : (0 : ℚ) < 1.0 + 1.079 / (m : ℚ) := by
      have : (0 : ℚ) < 1.0 := by norm_num
      linarith
    constructor
    · exact div_pos (by norm_num) hd1
    · rw [div_lt_one hd1]
      have h8 : (0.7213 : ℚ) < 1.0 := by norm_num
      linarith
  · norm_num

theorem fresh_harmonicSum (B : Nat) (H : Token → Nat) :
    harmonicSum { B := B, m := 2 ^ B, subStreams := List.replicate (2 ^ B) 0, h := H }
      = (2 : ℚ) ^ B := by
  simp [harmonicSum, List.take_replicate, List.map_replicate, List.sum_replicate]

theorem fresh_rawEstimate (B : Nat) (H : Token → Nat) :
    rawEstimate { B := B, m := 2 ^ B, subStreams := List.replicate (2 ^ B) 0, h := H }
      = get_alpha (2 ^ B) * (2 : ℚ) ^ B := by
  unfold rawEstimate
  rw [fresh_harmonicSum]
  have : ((2 : ℚ) ^ B) ≠ 0 := pow_ne_zero _ (by norm_num)
  simp only [Nat.cast_pow, Nat.cast_ofNat]
  field_simp

/-- C10: for any precision `B` with which a sketch is constructed, the fresh
sketch has `m = 2^B` registers, all 0; its raw estimate `alpha(m) * m` is below
`2.5 * m`, the number of zero registers is `m`, and `approx()` returns
`m * ln(m / m) = 0` (the arithmetic taken exactly). -/
theorem C10_fresh_estimate_is_zero (B : Nat) (H : Token → Nat) (s : HyperLogLog)
    (hnew : HyperLogLog.new B H = some s) :
    s.m = 2 ^ B ∧ s.subStreams.length = 2 ^ B ∧ (∀ i, s.register i = 0) ∧
      s.rawEstimate = get_alpha s.m * s.m ∧ s.rawEstimate < 2.5 * s.m ∧
      s.zeroCount = s.m ∧ s.approx = some 0 := by
  have hreg := new_register hnew
  obtain ⟨h30, rfl⟩ := new_some hnew
  have hraw := fresh_rawEstimate B H
  have hpos : (0 : ℚ) < (2 : ℚ) ^ B := pow_pos (by norm_num) _
  have hlt : get_alpha (2 ^ B) * (2 : ℚ) ^ B < 2.5 * (2 : ℚ) ^ B := by
    have := (get_alpha_pos_lt (2 ^ B)).2
    nlinarith
  have hzero : zeroCount { B := B, m := 2 ^ B, subStreams := List.replicate (2 ^ B) 0, h := H }
      = 2 ^ B := by
    simp [zeroCount]
  have hm31 : 2 ^ B < 2 ^ 31 := Nat.pow_lt_pow_right (by norm_num) (by omega)
  refine ⟨rfl, by simp, hreg, ?_, ?_, hzero, ?_⟩
  · rw [hraw]; simp
  · rw [hraw]; simpa using hlt
  · unfold approx
    have hcond : (2 ^ B ≤ (List.replicate (2 ^ B) (0 : Int)).length ∧ 2 ^ B < 2 ^ 31) :=
      ⟨by simp, hm31⟩
    simp only []
    rw [if_pos hcond, if_pos (by rw [hraw]; simpa using hlt), hzero,
      if_neg (Nat.pos_iff_ne_zero.1 (Nat.two_pow_pos B))]
    have hne : ((2 ^ B : ℕ) : ℝ) ≠ 0 := by positivity
    rw [div_self hne, Real.log_one, mul_zero]

/-- C10 at precision 4 with the hash function of multiplier 1001: the fresh
sketch has 16 registers and its estimate is 0. -/
theorem C10_witness :
    ∃ s, HyperLogLog.new 4 (hashFunc 1001) = some s ∧ s.m = 16 ∧ s.approx = some 0 := by
  have h := C10_fresh_estimate_is_zero 4 (hashFunc 1001) _ (new_eq (by decide) _)
  exact ⟨_, new_eq (by decide) _, h.1, h.2.2.2.2.2.2⟩

/-- C1 at precision 4 with the hash function of multiplier 1001 and the batches
`["9YGiN"]`, `["A", "B"]`: register 5 holds the reference maximum for bucket
5. -/
theorem C1_witness :
    ∃ s0 s, HyperLogLog.new 4 (hashFunc 1001) = some s0 ∧
      s0.updates [[[57, 89, 71, 105, 78]], [[65], [66]]] = some s ∧
      s.register 5 =
        (maxRank 4 (hashFunc 1001) [[57, 89, 71, 105, 78], [65], [66]] 5 : Int) := by
  obtain ⟨s, hs, _, h⟩ := C1_registers_hold_bucket_maxima 4 (hashFunc 1001) _ (by decide)
    (new_eq (by decide) _) [[[57, 89, 71, 105, 78]], [[65], [66]]]
  exact ⟨_, s, new_eq (by decide) _, hs, (h 5 (by decide)).1⟩

/-- C2 (amended) at precision 4 with the hash function of multiplier 1001 and
the batch `["9YGiN"]`: every register is at most 28 or equal to 33. -/
theorem C2_witness :
    ∃ s0 s, HyperLogLog.new 4 (hashFunc 1001) = some s0 ∧
      s0.updates [[[57, 89, 71, 105, 78]]] = some s ∧
      ∀ i, 0 ≤ s.register i ∧ (s.register i ≤ 32 - ((4 : Nat) : Int) ∨ s.register i = 33) := by
  obtain ⟨s, hs, h⟩ := C2_register_bound 4 (hashFunc 1001) _ (by decide)
    (new_eq (by decide) _) [[[57, 89, 71, 105, 78]]]
  exact ⟨_, s, new_eq (by decide) _, hs, h⟩

/-- C3 on the sketch of precision 4 whose registers are all 7, with the hash
function of multiplier 1001: no register is below 7 after the batch
`["9YGiN", "A"]`. -/
theorem C3_witness :
    ∃ s1, (⟨4, 16, List.replicate 16 7, hashFunc 1001⟩ : HyperLogLog).workWithStrings
        [[57, 89, 71, 105, 78], [65]] = some s1 ∧ ∀ i, i < 16 → 7 ≤ s1.register i := by
  obtain ⟨⟨s1, hs, _, h⟩, _⟩ := C3_registers_never_decrease
    ⟨4, 16, List.replicate 16 7, hashFunc 1001⟩ (by decide) [[57, 89, 71, 105, 78], [65]] []
  refine ⟨s1, hs, fun i hi => le_trans ?_ (h i)⟩
  have : ∀ j, j < 16 →
      7 ≤ (⟨4, 16, List.replicate 16 7, hashFunc 1001⟩ : HyperLogLog).register j := by decide
  exact this i hi

/-- C4 (amended) at precision 4 with the hash function of multiplier 1001: the
sketch has 16 registers and the bucket index of `0xFFFFFFFF` is 15. -/
theorem C4_witness :
    ∃ s0, HyperLogLog.new 4 (hashFunc 1001) = some s0 ∧ s0.m = 2 ^ 4 ∧
      s0.subStreams.length = 2 ^ 4 ∧ ∃ index, bucket 4 0xFFFFFFFF = some index ∧ index < 2 ^ 4 := by
  obtain ⟨s0, h0, hm, hl, hb, _⟩ := C4_bucket_in_range 4 (by decide) (by decide) (hashFunc 1001)
  exact ⟨s0, h0, hm, hl, hb 0xFFFFFFFF (by decide)⟩

end HyperLogLog

/-- C6 on the fresh sketch of precision 4 (hash function of multiplier 1001) and
the empty counter, with the token "A" fed twice in the batch
`["A", "B", "A"]`: sketch and counter end as after `["A", "B"]`. -/
theorem C6_witness :
    (∃ s1, (⟨4, 16, List.replicate 16 0, hashFunc 1001⟩ : HyperLogLog).workWithStrings
        [[65], [66], [65]] = some s1 ∧
      (⟨4, 16, List.replicate 16 0, hashFunc 1001⟩ : HyperLogLog).workWithStrings
        [[65], [66]] = some s1) ∧
    ExactCounter.empty.add [[65], [66], [65]] = ExactCounter.empty.add [[65], [66]] := by
  have h := C6_second_occurrence_is_noop ⟨4, 16, List.replicate 16 0, hashFunc 1001⟩
    (by decide) ExactCounter.empty [65] [] [[66]] [] []
  exact ⟨h.1, h.2.2.1⟩

/-! ### The estimate against its reference definition -/

namespace HyperLogLog

theorem cast_harmonic (l : List Int) :
    (((l.map fun r => (2 : ℚ) ^ (-r)).sum : ℚ) : ℝ) = (l.map fun r => (2 : ℝ) ^ (-r)).sum := by
  induction l with
  | nil => simp
  | cons a l ih =>
    simp only [List.map_cons, List.sum_cons, Rat.cast_add, ih]
    congr 1
    push_cast
    rfl

theorem harmonicSum_pos (s : HyperLogLog) (hm : 1 ≤ s.m) (hl : s.m ≤ s.subStreams.length) :
    0 < s.harmonicSum := by
  unfold harmonicSum
  have hpos : ∀ l : List Int, l ≠ [] → 0 < (l.map fun r => (2 : ℚ) ^ (-r)).sum := by
    intro l
    induction l with
    | nil => intro h; exact absurd rfl h
    | cons a l ih =>
      intro _
      simp only [List.map_cons, List.sum_cons]
      have ha : (0 : ℚ) < (2 : ℚ) ^ (-a) := zpow_pos (by norm_num) _
      by_cases hl : l = []
      · subst hl; simpa using ha
      · have := ih hl; linarith
  apply hpos
  intro h
  have := congrArg List.length h
  simp only [List.length_take, List.length_nil] at this
  omega


theorem term_le_one (r : Int) (h : 0 ≤ r) : (2 : ℚ) ^ (-r) ≤ 1 := by
  obtain ⟨n, rfl⟩ := Int.eq_ofNat_of_zero_le h
  rw [zpow_neg, zpow_natCast]
  exact inv_le_one_of_one_le₀ (one_le_pow₀ (by norm_num))

theorem harmonic_le_length (l : List Int) (h : ∀ r ∈ l, 0 ≤ r) :
    (l.map fun r => (2 : ℚ) ^ (-r)).sum ≤ (l.length : ℚ) := by
  induction l with
  | nil => simp
  | cons a l ih =>
    simp only [List.map_cons, List.sum_cons, List.length_cons, Nat.cast_add, Nat.cast_one]
    have h1 := term_le_one a (h a (List.mem_cons_self _ _))
    have h2 := ih (fun r hr => h r (List.mem_cons_of_mem _ hr))
    linarith

theorem cast_rawEstimate (s : HyperLogLog) (hm : s.m = s.subStreams.length) :
    ((s.rawEstimate : ℚ) : ℝ) =
      (get_alpha s.m : ℝ) * (s.m : ℝ) ^ 2 / (s.subStreams.map fun r => (2 : ℝ) ^ (-r)).sum := by
  unfold rawEstimate harmonicSum
  rw [hm, List.take_length, Rat.cast_div, cast_harmonic]
  push_cast
  ring

/-- C11: for every register state of a sketch with `m` registers (`m` below
`2^31`, the range of the `int` loop counter), `approx()` returns the reference
value `approxSpec`: with `raw = alpha(m) * m^2 / (sum of 2^(-registers[i]))` and
`v` the number of registers equal to 0, it is `m * ln(m / v)` when
`raw < 2.5 * m` and `v > 0`, and `raw` otherwise; in particular `raw` is
returned when `raw < 2.5 * m` and `v = 0`. -/
theorem C11_approx_matches_reference (s : HyperLogLog) (hm : s.m = s.subStreams.length)
    (h31 : s.m < 2 ^ 31) :
    s.approx = some (approxSpec s.m s.subStreams) ∧
    (((s.rawEstimate : ℚ) : ℝ) < 2.5 * (s.m : ℝ) → s.zeroCount = 0 →
      s.approx = some ((s.rawEstimate : ℚ) : ℝ)) := by
  have hraw := cast_rawEstimate s hm
  have hlt : s.rawEstimate < 2.5 * (s.m : ℚ) ↔
      ((s.rawEstimate : ℚ) : ℝ) < 2.5 * (s.m : ℝ) := by
    rw [← Rat.cast_lt (K := ℝ)]
    push_cast
    rfl
  have hcond : s.m ≤ s.subStreams.length ∧ s.m < 2 ^ 31 := ⟨by omega, h31⟩
  constructor
  · unfold approx approxSpec
    simp only []
    rw [if_pos hcond, ← hraw]
    by_cases h1 : s.rawEstimate < 2.5 * (s.m : ℚ)
    · rw [if_pos h1]
      by_cases h2 : s.zeroCount = 0
      · rw [if_pos h2]
        unfold zeroCount at h2
        rw [if_neg (by rw [h2]; simp)]
      · rw [if_neg h2]
        unfold zeroCount at h2
        rw [if_pos ⟨hlt.1 h1, Nat.pos_of_ne_zero h2⟩]
        rfl
    · rw [if_neg h1, if_neg (fun h => h1 (hlt.2 h.1))]
  · intro h1 h2
    unfold approx
    simp only []
    rw [if_pos hcond, if_pos (hlt.2 h1), if_pos h2]

/-- C13: `get_alpha` returns the tabulated constant for every `m`: the six table
entries, `0.7213 / (1 + 1.079 / m)` for every `m ≥ 128`, and the default 0.673
for every other `m`. -/
theorem C13_alpha_table :
    get_alpha 2 = 0.3512 ∧ get_alpha 4 = 0.5324 ∧ get_alpha 8 = 0.6355 ∧
    get_alpha 16 = 0.673 ∧ get_alpha 32 = 0.697 ∧ get_alpha 64 = 0.709 ∧
    (∀ m : Nat, 128 ≤ m → get_alpha m = 0.7213 / (1 + 1.079 / (m : ℚ))) ∧
    get_alpha 128 = 0.7213 / (1 + 1.079 / 128) ∧
    (∀ m : Nat, m ≠ 2 → m ≠ 4 → m ≠ 8 → m ≠ 16 → m ≠ 32 → m ≠ 64 → m < 128 →
      get_alpha m = 0.673) := by
  have h128 : ∀ m : Nat, 128 ≤ m → get_alpha m = 0.7213 / (1 + 1.079 / (m : ℚ)) := by
    intro m hm
    unfold get_alpha
    rw [if_neg (by omega), if_neg (by omega), if_neg (by omega), if_neg (by omega),
      if_neg (by omega), if_neg (by omega), if_pos hm]
    norm_num
  refine ⟨?_, ?_, ?_, ?_, ?_, ?_, h128, ?_, ?_⟩
  · simp [get_alpha]
  · simp [get_alpha]
  · simp [get_alpha]
  · simp [get_alpha]
  · simp [get_alpha]
  · simp [get_alpha]
  · rw [h128 128 (le_refl _)]; norm_num
  · intro m h2 h4 h8 h16 h32 h64 hlt
    unfold get_alpha
    rw [if_neg h2, if_neg h4, if_neg h8, if_neg h16, if_neg h32, if_neg h64,
      if_neg (by omega)]

theorem C13_witness : get_alpha 256 = 0.7213 / (1 + 1.079 / ((256 : Nat) : ℚ)) :=
  C13_alpha_table.2.2.2.2.2.2.1 256 (by norm_num)

/-- C19: for every sketch with `m ≥ 1` registers (`m` below `2^31`) whose values
are all non-negative, the sum of `2^(-registers[i])` is strictly positive (and
at most `m`), the
logarithm branch of `approx()` is entered only with `1 ≤ v ≤ m` (so that
`m / v ≥ 1`), and `approx()` returns a real number that is at least 0. -/
theorem C19_approx_well_defined (s : HyperLogLog) (hm : s.m = s.subStreams.length)
    (h1 : 1 ≤ s.m) (h31 : s.m < 2 ^ 31) (hnn : ∀ r ∈ s.subStreams, 0 ≤ r) :
    0 < s.harmonicSum ∧ s.harmonicSum ≤ (s.m : ℚ) ∧
    (s.rawEstimate < 2.5 * (s.m : ℚ) → s.zeroCount ≠ 0 →
      1 ≤ s.zeroCount ∧ s.zeroCount ≤ s.m ∧ (1 : ℝ) ≤ (s.m : ℝ) / (s.zeroCount : ℝ)) ∧
    ∃ e : ℝ, s.approx = some e ∧ 0 ≤ e := by
  have hle : s.harmonicSum ≤ (s.m : ℚ) := by
    unfold harmonicSum
    rw [hm, List.take_length]
    exact harmonic_le_length s.subStreams hnn
  have hsum := harmonicSum_pos s h1 (by omega)
  have hv : s.zeroCount ≤ s.m := by
    unfold zeroCount; rw [hm]; exact List.count_le_length (0 : Int) s.subStreams
  have hratio : s.zeroCount ≠ 0 → (1 : ℝ) ≤ (s.m : ℝ) / (s.zeroCount : ℝ) := by
    intro h0
    have hpos : (0 : ℝ) < (s.zeroCount : ℝ) := by
      exact_mod_cast Nat.pos_of_ne_zero h0
    rw [le_div_iff₀ hpos, one_mul]
    exact_mod_cast hv
  have hraw : (0 : ℚ) ≤ s.rawEstimate := by
    unfold rawEstimate
    have ha := (get_alpha_pos_lt s.m).1
    have hmq : (0 : ℚ) ≤ (s.m : ℚ) := Nat.cast_nonneg _
    exact div_nonneg (mul_nonneg (mul_nonneg (le_of_lt ha) hmq) hmq) (le_of_lt hsum)
  have hrawR : (0 : ℝ) ≤ ((s.rawEstimate : ℚ) : ℝ) := by exact_mod_cast hraw
  refine ⟨hsum, hle, fun _ h0 => ⟨Nat.pos_of_ne_zero h0, hv, hratio h0⟩, ?_⟩
  unfold approx
  simp only []
  rw [if_pos ⟨by omega, h31⟩]
  by_cases hlt : s.rawEstimate < 2.5 * (s.m : ℚ)
  · rw [if_pos hlt]
    by_cases h0 : s.zeroCount = 0
    · rw [if_pos h0]; exact ⟨_, rfl, hrawR⟩
    · rw [if_neg h0]
      refine ⟨_, rfl, mul_nonneg (Nat.cast_nonneg _) (Real.log_nonneg (hratio h0))⟩
  · rw [if_neg hlt]; exact ⟨_, rfl, hrawR⟩

theorem C11_witness :
    (4 = ([0, 1, 0, 2] : List Int).length ∧ 4 < 2 ^ 31) ∧
    HyperLogLog.approx ⟨2, 4, [0, 1, 0, 2], hashFunc 1001⟩ =
      some (approxSpec 4 [0, 1, 0, 2]) :=
  ⟨⟨rfl, by norm_num⟩,
    (C11_approx_matches_reference ⟨2, 4, [0, 1, 0, 2], hashFunc 1001⟩ rfl (by norm_num)).1⟩

theorem C19_witness :
    (4 = ([0, 1, 0, 2] : List Int).length ∧ 1 ≤ 4 ∧ 4 < 2 ^ 31 ∧
      ∀ r ∈ ([0, 1, 0, 2] : List Int), 0 ≤ r) ∧
    ∃ e : ℝ, HyperLogLog.approx ⟨2, 4, [0, 1, 0, 2], hashFunc 1001⟩ = some e ∧ 0 ≤ e :=
  ⟨⟨rfl, by norm_num, by norm_num, by decide⟩,
    (C19_approx_well_defined ⟨2, 4, [0, 1, 0, 2], hashFunc 1001⟩ rfl (by norm_num)
      (by norm_num) (by decide)).2.2.2⟩

end HyperLogLog

/-! ### The generated hash function -/

theorem toUnsigned_cast (x : Int) : ((toUnsigned x : Nat) : Int) = x % 2 ^ 32 := by
  unfold toUnsigned
  exact Int.toNat_of_nonneg (Int.emod_nonneg _ (by norm_num))

theorem toUnsigned_lt (x : Int) : toUnsigned x < 2 ^ 32 := by
  have h := toUnsigned_cast x
  have : x % 2 ^ 32 < 2 ^ 32 := Int.emod_lt_of_pos _ (by norm_num)
  omega

theorem hashFunc_snoc (A : Nat) (s : Token) (c : Int) :
    hashFunc A (s ++ [c]) = (hashFunc A s * A + toUnsigned c) % 2 ^ 32 := by
  unfold hashFunc
  rw [List.foldl_append]
  rfl

theorem hashFunc_lt (A : Nat) (s : Token) : hashFunc A s < 2 ^ 32 := by
  induction s using List.reverseRecOn with
  | nil => unfold hashFunc; simp
  | append_singleton s c _ =>
    rw [hashFunc_snoc]
    exact Nat.mod_lt _ (by norm_num)

theorem polynomial_snoc (A : Nat) (s : Token) (c : Int) :
    (Finset.sum (Finset.range (s ++ [c]).length) fun i =>
      (s ++ [c]).getD i 0 * (A : Int) ^ ((s ++ [c]).length - 1 - i)) =
    (Finset.sum (Finset.range s.length) fun i =>
      s.getD i 0 * (A : Int) ^ (s.length - 1 - i)) * A + c := by
  rw [List.length_append, List.length_singleton, Finset.sum_range_succ, Finset.sum_mul]
  congr 1
  · apply Finset.sum_congr rfl
    intro i hi
    have hi2 : i < s.length := Finset.mem_range.mp hi
    rw [List.getD_append _ _ _ _ hi2, mul_assoc, ← pow_succ]
    congr 2
    omega
  · rw [List.getD_append_right _ _ _ _ (le_refl _)]
    simp

theorem hashFunc_modEq (A : Nat) (s : Token) :
    ((hashFunc A s : Nat) : Int) ≡
      (Finset.sum (Finset.range s.length) fun i =>
        s.getD i 0 * (A : Int) ^ (s.length - 1 - i)) [ZMOD 2 ^ 32] := by
  induction s using List.reverseRecOn with
  | nil => unfold hashFunc; simp
  | append_singleton s c ih =>
    rw [hashFunc_snoc, polynomial_snoc]
    have h1 : (((hashFunc A s * A + toUnsigned c) % 2 ^ 32 : Nat) : Int) ≡
        ((hashFunc A s : Nat) : Int) * A + ((toUnsigned c : Nat) : Int) [ZMOD 2 ^ 32] := by
      push_cast
      exact Int.mod_modEq _ _
    have h2 : ((toUnsigned c : Nat) : Int) ≡ c [ZMOD 2 ^ 32] := by
      rw [toUnsigned_cast]
      exact Int.mod_modEq _ _
    exact h1.trans ((ih.mul_right _).add h2)

theorem hashFunc_eq_hashSpec (A : Nat) (s : Token) : hashFunc A s = hashSpec A s := by
  have h := hashFunc_modEq A s
  have hlt := hashFunc_lt A s
  unfold hashSpec
  unfold Int.ModEq at h
  rw [← h, Int.emod_eq_of_lt (Int.natCast_nonneg _) (by exact_mod_cast hlt)]
  simp

/-- C12: for every multiplier `A` and every token `s`, the generated hash
function returns the left fold `h <- h * A + c` over the characters of `s`
starting from 0 with 32-bit wrap-around, which equals the reference value
`(sum over i of s[i] * A^(len(s) - 1 - i)) mod 2^32`; the hash of the empty
token is 0, `hash(s ++ [c]) = (hash(s) * A + c) mod 2^32`, the result is a
32-bit value, and the function returned by `generateNewHashFunc` is the fold
with `A = draw | 1`, a function of `A` and the characters of `s` only. -/
theorem C12_hash_is_polynomial_fold (A : Nat) (s : Token) (c : Int) :
    hashFunc A s = hashSpec A s ∧
    hashFunc A [] = 0 ∧
    hashFunc A (s ++ [c]) = (hashFunc A s * A + toUnsigned c) % 2 ^ 32 ∧
    ((hashFunc A (s ++ [c]) : Nat) : Int) = ((hashFunc A s : Nat) * (A : Int) + c) % 2 ^ 32 ∧
    hashFunc A s < 2 ^ 32 ∧
    (∀ draw : Nat, generateNewHashFunc draw s = hashFunc ((draw % 2 ^ 32) ||| 1) s) := by
  refine ⟨hashFunc_eq_hashSpec A s, rfl, hashFunc_snoc A s c, ?_, hashFunc_lt A s,
    fun _ => rfl⟩
  rw [hashFunc_snoc]
  push_cast
  rw [toUnsigned_cast]
  norm_num [Int.add_emod_emod]

theorem hashFunc_split (A : Nat) (pre post : Token) (c : Int) :
    hashFunc A (pre ++ c :: post) =
      post.foldl (fun hash d => (hash * A + toUnsigned d) % 2 ^ 32)
        ((hashFunc A pre * A + toUnsigned c) % 2 ^ 32) := by
  unfold hashFunc
  rw [List.foldl_append, List.foldl_cons]

theorem hash_step_injective (A : Nat) (hA : A % 2 = 1) (u x y : Nat)
    (hx : x < 2 ^ 32) (hy : y < 2 ^ 32)
    (h : (x * A + u) % 2 ^ 32 = (y * A + u) % 2 ^ 32) : x = y := by
  have h1 : x * A ≡ y * A [MOD 2 ^ 32] := Nat.ModEq.add_right_cancel' u h
  have hc : Nat.gcd (2 ^ 32) A = 1 :=
    Nat.Coprime.pow_left 32 (Nat.coprime_two_left.mpr (Nat.odd_iff.mpr hA))
  have h2 : x ≡ y [MOD 2 ^ 32] := Nat.ModEq.cancel_right_of_coprime hc h1
  unfold Nat.ModEq at h2
  rwa [Nat.mod_eq_of_lt hx, Nat.mod_eq_of_lt hy] at h2

theorem hash_fold_injective (A : Nat) (hA : A % 2 = 1) (post : Token) :
    ∀ x y : Nat, x < 2 ^ 32 → y < 2 ^ 32 →
      post.foldl (fun hash d => (hash * A + toUnsigned d) % 2 ^ 32) x =
        post.foldl (fun hash d => (hash * A + toUnsigned d) % 2 ^ 32) y → x = y := by
  induction post with
  | nil => intro x y _ _ h; exact h
  | cons d post ih =>
    intro x y hx hy h
    rw [List.foldl_cons, List.foldl_cons] at h
    have h1 := ih _ _ (Nat.mod_lt _ (by norm_num)) (Nat.mod_lt _ (by norm_num)) h
    exact hash_step_injective A hA _ x y hx hy h1

theorem toUnsigned_injOn (c d : Int) (hc : -128 ≤ c ∧ c ≤ 255) (hd : -128 ≤ d ∧ d ≤ 255)
    (h : toUnsigned c = toUnsigned d) : c = d := by
  have h1 := toUnsigned_cast c
  have h2 := toUnsigned_cast d
  rw [h] at h1
  omega

theorem or_one_odd (n : Nat) : (n ||| 1) % 2 = 1 :=
  Nat.or_mod_two_eq_one.mpr (Or.inr rfl)

theorem le_or_one (n : Nat) : n ≤ n ||| 1 := by
  have h1 := or_one_odd n
  have h2 : (n ||| 1) / 2 = n / 2 := by
    rw [Nat.or_div_two]
    simp
  omega

/-- C16: for every value drawn in `[1000, 2^32 - 1]` the multiplier
`A = draw | 1` of the generated hash function is odd (and at least 1000), and for every odd `A` two
tokens of the same length that differ in exactly one character position (the
same characters before and after it, character values of a `char`, i.e. in
`[-128, 255]`) have different 32-bit hashes; in particular this holds for the
function returned by `generateNewHashFunc`. -/
theorem C16_single_character_difference (draw : Nat) (hlo : 1000 ≤ draw) (hhi : draw < 2 ^ 32) :
    ((draw % 2 ^ 32) ||| 1) % 2 = 1 ∧ (draw % 2 ^ 32) ||| 1 = draw ||| 1 ∧
    1000 ≤ (draw % 2 ^ 32) ||| 1 ∧
    (∀ (A : Nat) (pre post : Token) (c d : Int), A % 2 = 1 →
      -128 ≤ c ∧ c ≤ 255 → -128 ≤ d ∧ d ≤ 255 → c ≠ d →
      (pre ++ c :: post).length = (pre ++ d :: post).length ∧
      hashFunc A (pre ++ c :: post) ≠ hashFunc A (pre ++ d :: post)) ∧
    (∀ (pre post : Token) (c d : Int),
      -128 ≤ c ∧ c ≤ 255 → -128 ≤ d ∧ d ≤ 255 → c ≠ d →
      generateNewHashFunc draw (pre ++ c :: post) ≠
        generateNewHashFunc draw (pre ++ d :: post)) := by
  have key : ∀ (A : Nat) (pre post : Token) (c d : Int), A % 2 = 1 →
      -128 ≤ c ∧ c ≤ 255 → -128 ≤ d ∧ d ≤ 255 → c ≠ d →
      hashFunc A (pre ++ c :: post) ≠ hashFunc A (pre ++ d :: post) := by
    intro A pre post c d hA hc hd hne heq
    rw [hashFunc_split, hashFunc_split] at heq
    have h1 := hash_fold_injective A hA post _ _ (Nat.mod_lt _ (by norm_num))
      (Nat.mod_lt _ (by norm_num)) heq
    have h2 : (toUnsigned c + hashFunc A pre * A) % 2 ^ 32 =
        (toUnsigned d + hashFunc A pre * A) % 2 ^ 32 := by
      rw [Nat.add_comm, h1, Nat.add_comm]
    have h3 : toUnsigned c ≡ toUnsigned d [MOD 2 ^ 32] := Nat.ModEq.add_right_cancel' _ h2
    unfold Nat.ModEq at h3
    rw [Nat.mod_eq_of_lt (toUnsigned_lt c), Nat.mod_eq_of_lt (toUnsigned_lt d)] at h3
    exact hne (toUnsigned_injOn c d hc hd h3)
  refine ⟨or_one_odd _, by rw [Nat.mod_eq_of_lt hhi], ?_, ?_, ?_⟩
  · rw [Nat.mod_eq_of_lt hhi]
    exact le_trans hlo (le_or_one draw)
  · intro A pre post c d hA hc hd hne
    exact ⟨by simp, key A pre post c d hA hc hd hne⟩
  · intro pre post c d hc hd hne
    exact key _ pre post c d (or_one_odd _) hc hd hne

theorem C16_witness :
    (1000 ≤ 1000 ∧ 1000 < 2 ^ 32) ∧
    generateNewHashFunc 1000 [65, 66, 67] ≠ generateNewHashFunc 1000 [65, 68, 67] :=
  ⟨⟨le_refl _, by norm_num⟩,
    (C16_single_character_difference 1000 (le_refl _) (by norm_num)).2.2.2.2 [65] [67] 66 68
      (by norm_num) (by norm_num) (by norm_num)⟩

/-! ### Registers as a function of the set of tokens -/

namespace HyperLogLog

theorem maxRank_le_of_subset (B : Nat) (H : Token → Nat) (ts us : List Token) (i : Nat)
    (hsub : ∀ t, t ∈ ts → t ∈ us) : maxRank B H ts i ≤ maxRank B H us i := by
  rcases maxRank_attained B H ts i with ⟨t, ht, hb, hr⟩ | ⟨h0, _⟩
  · rw [← hr]
    exact le_maxRank B H us i t (hsub t ht) hb
  · rw [h0]
    exact Nat.zero_le _

theorem maxRank_congr (B : Nat) (H : Token → Nat) (ts us : List Token) (i : Nat)
    (hset : ∀ t, t ∈ ts ↔ t ∈ us) : maxRank B H ts i = maxRank B H us i :=
  Nat.le_antisymm (maxRank_le_of_subset B H ts us i fun t => (hset t).1)
    (maxRank_le_of_subset B H us ts i fun t => (hset t).2)

theorem new_nonNeg {B : Nat} {H : Token → Nat} {s : HyperLogLog}
    (h : HyperLogLog.new B H = some s) : s.NonNeg := by
  intro i
  rw [new_register h i]

/-- C17: for a fixed precision `B` (at least 1) and hash function, the register
array produced from a fresh sketch depends only on the set of tokens fed: two
sequences of batches whose concatenations contain the same set of tokens (in
any order, with any multiplicities, split into batches in any way) are both
processed completely and leave equal register arrays. -/
theorem C17_registers_depend_on_token_set (B : Nat) (H : Token → Nat) (s0 : HyperLogLog)
    (hnew : HyperLogLog.new B H = some s0) (hB : 1 ≤ B) (bs1 bs2 : List (List Token))
    (hset : ∀ t, t ∈ bs1.flatten ↔ t ∈ bs2.flatten) :
    ∃ s1 s2, s0.updates bs1 = some s1 ∧ s0.updates bs2 = some s2 ∧
      s1.subStreams = s2.subStreams ∧ s1 = s2 := by
  have hv := new_valid hnew hB
  have hn := new_nonNeg hnew
  refine ⟨_, _, updates_eq hv bs1, updates_eq hv bs2, ?_⟩
  have hsub : (bs1.flatten.foldl stepFn s0).subStreams =
      (bs2.flatten.foldl stepFn s0).subStreams := by
    apply List.ext_getElem
    · rw [foldl_stepFn_length, foldl_stepFn_length]
    · intro i h1 h2
      have hi : i < s0.subStreams.length := by rwa [foldl_stepFn_length] at h1
      have e1 := foldl_register_max hv hn bs1.flatten hi
      have e2 := foldl_register_max hv hn bs2.flatten hi
      rw [maxRank_congr s0.B s0.h _ _ i hset, ← e2] at e1
      unfold register at e1
      rw [List.getD_eq_getElem _ _ h1, List.getD_eq_getElem _ _ h2] at e1
      exact e1
  refine ⟨hsub, ?_⟩
  have hB1 := foldl_stepFn_B bs1.flatten s0
  have hB2 := foldl_stepFn_B bs2.flatten s0
  have hm1 := foldl_stepFn_m bs1.flatten s0
  have hm2 := foldl_stepFn_m bs2.flatten s0
  have hh1 := foldl_stepFn_h bs1.flatten s0
  have hh2 := foldl_stepFn_h bs2.flatten s0
  generalize bs1.flatten.foldl stepFn s0 = a at *
  generalize bs2.flatten.foldl stepFn s0 = b at *
  cases a
  cases b
  simp only at hsub hB1 hB2 hm1 hm2 hh1 hh2
  simp only [mk.injEq]
  exact ⟨hB1.trans hB2.symm, hm1.trans hm2.symm, hsub, hh1.trans hh2.symm⟩

/-- C17 at precision 4 with the hash function of multiplier 1001: the batches
`["A", "B"], ["A"]` and `["B"], [], ["A", "B"]` leave the same registers. -/
theorem C17_witness :
    ∃ s0 s1 s2, HyperLogLog.new 4 (hashFunc 1001) = some s0 ∧
      s0.updates [[[65], [66]], [[65]]] = some s1 ∧
      s0.updates [[[66]], [], [[65], [66]]] = some s2 ∧
      s1.subStreams = s2.subStreams := by
  obtain ⟨s1, s2, h1, h2, h3, _⟩ := C17_registers_depend_on_token_set 4 (hashFunc 1001) _
    (new_eq (by decide) _) (by decide) [[[65], [66]], [[65]]] [[[66]], [], [[65], [66]]]
    (by intro t; simp; tauto)
  exact ⟨_, s1, s2, new_eq (by decide) _, h1, h2, h3⟩

/-! ### The rank as a count of leading zeros of the suffix -/

theorem clzFrom_spec (n : Nat) : ∀ x : Nat, x < 2 ^ n → x ≠ 0 →
    clzFrom n x < n ∧ x.testBit (n - 1 - clzFrom n x) = true ∧
      ∀ j, j < clzFrom n x → x.testBit (n - 1 - j) = false := by
  induction n with
  | zero => intro x hx h0; simp at hx; exact absurd hx h0
  | succ n ih =>
    intro x hx h0
    unfold clzFrom
    by_cases hb : x.testBit n = true
    · rw [if_pos hb]
      exact ⟨Nat.succ_pos _, by simpa using hb, fun j hj => absurd hj (Nat.not_lt_zero _)⟩
    · rw [if_neg hb]
      have hlt : x < 2 ^ n := by
        rw [testBit_top hx] at hb
        simpa using hb
      obtain ⟨h1, h2, h3⟩ := ih x hlt h0
      refine ⟨by omega, ?_, ?_⟩
      · have e : n + 1 - 1 - (clzFrom n x + 1) = n - 1 - clzFrom n x := by omega
        rw [e]; exact h2
      · intro j hj
        cases j with
        | zero => simpa using hb
        | succ j =>
          have e : n + 1 - 1 - (j + 1) = n - 1 - j := by omega
          rw [e]; exact h3 j (by omega)

theorem shifted_suffix {B : Nat} (h2 : B ≤ 32) (hash : Nat) :
    hash * 2 ^ B % 2 ^ 32 = hash % 2 ^ (32 - B) * 2 ^ B := by
  have e : (2 : Nat) ^ 32 = 2 ^ (32 - B) * 2 ^ B := by
    rw [← pow_add]; congr 1; omega
  rw [e, Nat.mul_mod_mul_right]

theorem clzFrom_shift {B : Nat} (h2 : B ≤ 32) {x : Nat} (hx : x < 2 ^ (32 - B)) (h0 : x ≠ 0) :
    clzFrom 32 (x * 2 ^ B) = clzFrom (32 - B) x := by
  have hlo : 2 ^ Nat.log 2 x ≤ x := Nat.pow_log_le_self 2 h0
  have hhi : x < 2 ^ (Nat.log 2 x + 1) := Nat.lt_pow_succ_log_self (by norm_num) x
  have hk : Nat.log 2 x < 32 - B := by
    have : 2 ^ Nat.log 2 x < 2 ^ (32 - B) := lt_of_le_of_lt hlo hx
    exact (Nat.pow_lt_pow_iff_right (by norm_num)).1 this
  have e : (2 : Nat) ^ 32 = 2 ^ (32 - B) * 2 ^ B := by
    rw [← pow_add]; congr 1; omega
  have hpos : 0 < 2 ^ B := Nat.two_pow_pos B
  rw [clzFrom_eq hx hlo hhi,
    clzFrom_eq (k := Nat.log 2 x + B) (by rw [e]; exact Nat.mul_lt_mul_of_pos_right hx hpos)
      (by rw [pow_add]; exact Nat.mul_le_mul_right _ hlo)
      (by rw [show Nat.log 2 x + B + 1 = (Nat.log 2 x + 1) + B by omega, pow_add]
          exact Nat.mul_lt_mul_of_pos_right hhi hpos)]
  omega

/-- C18: for every precision `B ≤ 31` (in particular `1 ≤ B ≤ 31`) and every hash
`h` (in particular every 32-bit one), the
rank `countl_zero(h << B) + 1` computed on a 32-bit word satisfies: if the low
`32 - B` bits of `h` are not all zero, then `rank - 1` is the number of leading
zero bits of that `(32 - B)`-bit suffix (the bits above the first set bit from
the top are zero) and `1 ≤ rank ≤ 32 - B`; if the low `32 - B` bits of `h` are
all zero, then `rank = 33`. -/
theorem C18_rank_counts_suffix_zeros (B hash : Nat) (h2 : B ≤ 31) :
    (hash % 2 ^ (32 - B) ≠ 0 →
      rank B hash = some (clzFrom (32 - B) (hash % 2 ^ (32 - B)) + 1) ∧
      1 ≤ clzFrom (32 - B) (hash % 2 ^ (32 - B)) + 1 ∧
      clzFrom (32 - B) (hash % 2 ^ (32 - B)) + 1 ≤ 32 - B ∧
      (hash % 2 ^ (32 - B)).testBit
        (32 - B - 1 - clzFrom (32 - B) (hash % 2 ^ (32 - B))) = true ∧
      ∀ j, j < clzFrom (32 - B) (hash % 2 ^ (32 - B)) →
        (hash % 2 ^ (32 - B)).testBit (32 - B - 1 - j) = false) ∧
    (hash % 2 ^ (32 - B) = 0 → rank B hash = some 33) := by
  have hmod : hash % 2 ^ (32 - B) < 2 ^ (32 - B) := Nat.mod_lt _ (Nat.two_pow_pos _)
  constructor
  · intro h0
    obtain ⟨c1, c2, c3⟩ := clzFrom_spec (32 - B) _ hmod h0
    refine ⟨?_, by omega, by omega, c2, c3⟩
    rw [rank_eq h2]
    unfold rankVal countl_zero
    rw [shifted_suffix (by omega), clzFrom_shift (by omega) hmod h0]
  · intro h0
    rw [rank_eq h2]
    unfold rankVal countl_zero
    rw [shifted_suffix (by omega), h0, Nat.zero_mul, clzFrom_zero]

/-- C18 at precision 4: the hash `0x50000003` has suffix 3 with 26 leading zeros
in 28 bits, so its rank is 27. -/
theorem C18_witness :
    (4 ≤ 31 ∧ 0x50000003 % 2 ^ (32 - 4) ≠ 0) ∧
    rank 4 0x50000003 = some (clzFrom (32 - 4) (0x50000003 % 2 ^ (32 - 4)) + 1) ∧
    clzFrom (32 - 4) (0x50000003 % 2 ^ (32 - 4)) + 1 = 27 :=
  ⟨⟨by decide, by decide⟩,
    ((C18_rank_counts_suffix_zeros 4 0x50000003 (by decide)).1
      (by decide)).1, by decide⟩

end HyperLogLog

/-! ### The summary statistics -/

theorem foldl_add_map (f : ℚ → ℚ) (l : List ℚ) :
    ∀ a : ℚ, l.foldl (fun acc t => acc + f t) a = a + (l.map f).sum := by
  induction l with
  | nil => intro a; simp
  | cons x l ih =>
    intro a
    rw [List.foldl_cons, ih, List.map_cons, List.sum_cons, add_assoc]

theorem statsSum_eq (results : List ℚ) : statsSum results = results.sum := by
  unfold statsSum
  have h := foldl_add_map (fun t => t) results 0
  simpa using h

theorem sumDelux_eq (results : List ℚ) (E : ℚ) :
    sumDelux results E = (results.map fun x => (x - E) ^ 2).sum := by
  unfold sumDelux
  rw [foldl_add_map (fun t => (t - E) * (t - E)) results 0, zero_add]
  congr 1
  apply List.map_congr_left
  intro x _
  ring

theorem statsE_eq (results : List ℚ) (hne : results ≠ []) (hlen : results.length < 2 ^ 64) :
    statsE results = some (results.sum / (results.length : ℚ)) := by
  have hpos : 0 < results.length := List.length_pos.mpr hne
  unfold statsE divide
  rw [Nat.mod_eq_of_lt hlen, statsSum_eq, if_neg]
  exact_mod_cast (Nat.pos_iff_ne_zero.mp hpos)

theorem sizeSub_one {n : Nat} (h1 : 1 ≤ n) (hlen : n < 2 ^ 64) : sizeSub n 1 = n - 1 := by
  unfold sizeSub
  omega

/-- C14: for every non-empty sample sequence of length `n` (a `size_t`),
`statsCounter` computes the arithmetic mean `sum / n`; its standard deviation is
a division by `n - 1 = 0`, hence without value, exactly when `n = 1`; for every
`n ≥ 2` the denominator `n - 1` is non-zero and the function returns the mean
together with `sqrt(sum of (x - mean)^2 / (n - 1))`. -/
theorem C14_statsCounter (results : List ℚ) (hne : results ≠ [])
    (hlen : results.length < 2 ^ 64) :
    statsE results = some (results.sum / (results.length : ℚ)) ∧
    (statsCounter results = none ↔ results.length = 1) ∧
    (results.length = 1 → sizeSub results.length 1 = 0) ∧
    (2 ≤ results.length →
      sizeSub results.length 1 ≠ 0 ∧
      statsCounter results =
        some (results.sum / (results.length : ℚ),
          Real.sqrt (((results.map fun x =>
            (x - results.sum / (results.length : ℚ)) ^ 2).sum /
              ((results.length : ℚ) - 1) : ℚ) : ℝ))) := by
  have hpos : 0 < results.length := List.length_pos.mpr hne
  have hE := statsE_eq results hne hlen
  have hsub := sizeSub_one hpos hlen
  have h2 : 2 ≤ results.length →
      statsVariance results =
        some (results.sum / (results.length : ℚ),
          (results.map fun x => (x - results.sum / (results.length : ℚ)) ^ 2).sum /
            ((results.length : ℚ) - 1)) := by
    intro h
    have hne1 : ((results.length - 1 : Nat) : ℚ) ≠ 0 := by
      exact_mod_cast (show results.length - 1 ≠ 0 by omega)
    unfold statsVariance
    rw [hE, Option.some_bind, hsub]
    unfold divide
    rw [if_neg hne1, Option.map_some', sumDelux_eq, Nat.cast_sub hpos, Nat.cast_one]
  have h1 : results.length = 1 → statsVariance results = none := by
    intro h
    have h0 : ((results.length - 1 : Nat) : ℚ) = 0 := by
      rw [h]; exact Nat.cast_zero
    unfold statsVariance
    rw [hE, Option.some_bind, hsub]
    unfold divide
    rw [if_pos h0, Option.map_none']
  refine ⟨hE, ⟨?_, ?_⟩, fun h => by rw [hsub, h], ?_⟩
  · intro hnone
    by_contra hn1
    unfold statsCounter at hnone
    rw [h2 (by omega), Option.map_some'] at hnone
    exact absurd hnone (Option.some_ne_none _)
  · intro h
    unfold statsCounter
    rw [h1 h, Option.map_none']
  · intro h
    refine ⟨by rw [hsub]; omega, ?_⟩
    unfold statsCounter
    rw [h2 h, Option.map_some']

/-- C14 on the samples `1, 2, 3`: the mean is 2 and the function returns a
pair; on the single sample `5` it returns nothing. -/
theorem C14_witness :
    (([1, 2, 3] : List ℚ) ≠ [] ∧ ([1, 2, 3] : List ℚ).length < 2 ^ 64) ∧
    statsE [1, 2, 3] = some (([1, 2, 3] : List ℚ).sum / (([1, 2, 3] : List ℚ).length : ℚ)) ∧
    (statsCounter [1, 2, 3] = none ↔ ([1, 2, 3] : List ℚ).length = 1) :=
  ⟨⟨List.cons_ne_nil _ _, by norm_num⟩,
    (C14_statsCounter [1, 2, 3] (List.cons_ne_nil _ _) (by norm_num)).1,
    (C14_statsCounter [1, 2, 3] (List.cons_ne_nil _ _) (by norm_num)).2.1⟩

/-! ### The alphabet of the generated tokens -/

theorem charset_length : charset.length = 64 := by decide

theorem charset_symbol (i : Nat) (hi : i ≤ alphabet_size) :
    ∃ c, charset[i]? = some c ∧ c ≠ 0 ∧ c ∈ charset.take 63 := by
  unfold alphabet_size at hi
  interval_cases i <;> exact ⟨_, rfl, by decide, by decide⟩

/-- C15 (as stated) fails: the table `charset` holds 63 symbols before its
terminating zero, the index 62 holds the hyphen, and no index drawn from
`[0, alphabet_size]` is without a symbol. -/
theorem C15_counterexample :
    alphabet_size = 62 ∧ charset.length = 64 ∧ charset[62]? = some 45 ∧
    charset[63]? = some 0 ∧
    ¬ ∃ i, i ≤ alphabet_size ∧ ∀ c, charset[i]? = some c → c = 0 := by
  refine ⟨rfl, by decide, by decide, by decide, ?_⟩
  rintro ⟨i, hi, h⟩
  obtain ⟨c, hc, h0, _⟩ := charset_symbol i hi
  exact h0 (h c hc)

theorem generateOneString_succ (n : Nat) (draws : Nat → Nat) :
    generateOneString (n + 1) draws =
      match generateOneString n draws, charset[draws n]? with
      | some r, some c => some (r ++ [c])
      | _, _ => none := by
  unfold generateOneString
  rw [List.range_succ, List.foldl_append, List.foldl_cons, List.foldl_nil]

theorem generateOneString_defined (draws : Nat → Nat) (n : Nat)
    (hd : ∀ i, i < n → draws i ≤ alphabet_size) :
    ∃ token, generateOneString n draws = some token ∧ token.length = n ∧
      ∀ c ∈ token, c ≠ 0 ∧ c ∈ charset.take 63 := by
  induction n with
  | zero => exact ⟨[], rfl, rfl, fun c hc => absurd hc (List.not_mem_nil c)⟩
  | succ n ih =>
    obtain ⟨r, hr, hlen, hall⟩ := ih fun i hi => hd i (by omega)
    obtain ⟨c, hc, h0, hmem⟩ := charset_symbol (draws n) (hd n (by omega))
    refine ⟨r ++ [c], ?_, by simp [hlen], ?_⟩
    · rw [generateOneString_succ, hr, hc]
    · intro x hx
      rcases List.mem_append.1 hx with h | h
      · exact hall x h
      · rw [List.mem_singleton.1 h]; exact ⟨h0, hmem⟩

theorem charset_addressable (c : Int) (hc : c ∈ charset.take 63) :
    ∃ d, d ≤ alphabet_size ∧ charset[d]? = some c := by
  obtain ⟨n, hn, rfl⟩ := List.getElem_of_mem hc
  have hn63 : n < 63 := by
    have : (charset.take 63).length = 63 := by decide
    omega
  refine ⟨n, by unfold alphabet_size; omega, ?_⟩
  rw [List.getElem_take]
  exact List.getElem?_eq_getElem _

/-- C15 (amended): the character index is drawn from the inclusive range
`[0, alphabet_size]` with `alphabet_size = 62`, 63 possible draws against a table
of 63 distinct symbols (the 62 alphanumerics and the hyphen at index 62): with
every draw in that range `generateOneString` reads inside the table and returns
a token of the drawn length made of symbols of the table, and every one of the
63 symbols is addressed by a drawable index. -/
theorem C15_every_draw_addresses_a_symbol (length : Nat) (draws : Nat → Nat)
    (hd : ∀ i, i < length → draws i ≤ alphabet_size) :
    (Finset.range (alphabet_size + 1)).card = 63 ∧
    (charset.take 63).length = 63 ∧ (charset.take 63).Nodup ∧
    (∃ token, generateOneString length draws = some token ∧ token.length = length ∧
      ∀ c ∈ token, c ≠ 0 ∧ c ∈ charset.take 63) ∧
    (∀ c ∈ charset.take 63, ∃ d, d ≤ alphabet_size ∧ charset[d]? = some c) :=
  ⟨by simp [alphabet_size], by decide, by decide, generateOneString_defined draws length hd,
    charset_addressable⟩

/-- C15 (amended) with length 3 and every draw equal to 62: the token is
`"---"`. -/
theorem C15_witness :
    (∀ i, i < 3 → (fun _ : Nat => 62) i ≤ alphabet_size) ∧
    ∃ token, generateOneString 3 (fun _ => 62) = some token ∧ token.length = 3 ∧
      ∀ c ∈ token, c ≠ 0 ∧ c ∈ charset.take 63 :=
  ⟨fun _ _ => le_refl _,
    (C15_every_draw_addresses_a_symbol 3 (fun _ => 62) (fun _ _ => le_refl _)).2.2.2.1⟩

/-! ### The driver loop over a fixed fraction -/

namespace RandomStreamGen

theorem nextPortion_request (gen : Nat → Token) (s : RandomStreamGen) (percent f : ℚ) :
    (nextPortion gen s percent).2.request f = s.request f := by
  unfold request requestCast
  rw [nextPortion_stream_size]

theorem nextPortion_ready_min (gen : Nat → Token) {s : RandomStreamGen} (percent : ℚ)
    (hp : s.ready_strings_count ≤ s.stream_size)
    (hsum : s.stream_size + s.request percent < 2 ^ 64) :
    (nextPortion gen s percent).2.ready_strings_count =
      min (s.ready_strings_count + s.request percent) s.stream_size := by
  have hc := @countToGenerate_eq s percent hp (by omega) (by omega)
  rw [nextPortion_state]
  by_cases h0 : s.countToGenerate percent = 0
  · rw [if_pos h0]
    omega
  · rw [if_neg h0]
    show sizeAdd s.ready_strings_count (s.countToGenerate percent) = _
    unfold sizeAdd
    omega

theorem run_replicate_ready (gen : Nat → Token) (percent : ℚ) (k : Nat) :
    ∀ s : RandomStreamGen, s.ready_strings_count ≤ s.stream_size →
      s.stream_size + s.request percent < 2 ^ 64 →
      (run gen s (List.replicate k percent)).ready_strings_count =
        min (s.ready_strings_count + k * s.request percent) s.stream_size := by
  induction k with
  | zero =>
    intro s hp _
    rw [List.replicate_zero, run]
    omega
  | succ k ih =>
    intro s hp hsum
    rw [List.replicate_succ, run]
    have h1 := nextPortion_ready_min gen percent hp hsum
    have hs := nextPortion_stream_size gen s percent
    have hr := nextPortion_request gen s percent percent
    rw [ih (nextPortion gen s percent).2 (by rw [hs, h1]; omega) (by rw [hs, hr]; exact hsum),
      hs, hr, h1, Nat.succ_mul]
    omega

theorem ceil_step {a r : Nat} (hr : 1 ≤ r) (ha : 1 ≤ a) :
    (a + r - 1) / r = (a - min r a + r - 1) / r + 1 := by
  by_cases h : a ≤ r
  · rw [Nat.min_eq_right h, Nat.sub_self, Nat.zero_add,
      Nat.div_eq_of_lt (by omega : r - 1 < r)]
    have e : a + r - 1 = (a - 1) + r := by omega
    rw [e, Nat.add_div_right _ (by omega), Nat.div_eq_of_lt (by omega : a - 1 < r)]
  · rw [Nat.min_eq_left (by omega)]
    have e : a + r - 1 = (a - r + r - 1) + r := by omega
    rw [e, Nat.add_div_right _ (by omega)]

theorem ceil_le_iff {N r : Nat} (hr : 1 ≤ r) (k : Nat) :
    (N + r - 1) / r ≤ k ↔ N ≤ k * r := by
  rw [Nat.div_le_iff_le_mul_add_pred (by omega), Nat.mul_comm]
  omega

end RandomStreamGen

theorem driverLoop_terminates (gen : Nat → Token) (percent : ℚ) (fuel : Nat) :
    ∀ s : RandomStreamGen, s.ready_strings_count ≤ s.stream_size →
      s.stream_size + s.request percent < 2 ^ 64 → 1 ≤ s.request percent →
      (s.stream_size - s.ready_strings_count + s.request percent - 1) / s.request percent
        ≤ fuel →
      driverLoop gen percent fuel s =
        some ((s.stream_size - s.ready_strings_count + s.request percent - 1) /
          s.request percent) := by
  induction fuel with
  | zero =>
    intro s hp _ hr hfuel
    have hfin : s.isFinished = true := by
      unfold RandomStreamGen.isFinished
      rw [decide_eq_true_eq]
      by_contra hlt
      have hstep := RandomStreamGen.ceil_step hr
        (by omega : 1 ≤ s.stream_size - s.ready_strings_count)
      rw [hstep] at hfuel
      exact Nat.not_succ_le_zero _ hfuel
    have e : s.stream_size - s.ready_strings_count = 0 := by
      unfold RandomStreamGen.isFinished at hfin
      rw [decide_eq_true_eq] at hfin
      omega
    rw [driverLoop, if_pos hfin, e, Nat.zero_add, Nat.div_eq_of_lt (by omega)]
  | succ fuel ih =>
    intro s hp hsum hr hfuel
    by_cases hfin : s.isFinished = true
    · have e : s.stream_size - s.ready_strings_count = 0 := by
        unfold RandomStreamGen.isFinished at hfin
        rw [decide_eq_true_eq] at hfin
        omega
      rw [driverLoop, if_pos hfin, e, Nat.zero_add, Nat.div_eq_of_lt (by omega)]
    · have hlt : s.ready_strings_count < s.stream_size := by
        unfold RandomStreamGen.isFinished at hfin
        rw [decide_eq_true_eq] at hfin
        omega
      have h1 := RandomStreamGen.nextPortion_ready_min gen percent hp hsum
      have hs := RandomStreamGen.nextPortion_stream_size gen s percent
      have hq := RandomStreamGen.nextPortion_request gen s percent percent
      have hstep := RandomStreamGen.ceil_step hr
        (by omega : 1 ≤ s.stream_size - s.ready_strings_count)
      have ea : s.stream_size - min (s.ready_strings_count + s.request percent) s.stream_size =
          s.stream_size - s.ready_strings_count -
            min (s.request percent) (s.stream_size - s.ready_strings_count) := by omega
      rw [driverLoop, if_neg hfin,
        ih (RandomStreamGen.nextPortion gen s percent).2 (by rw [hs, h1]; omega)
          (by rw [hs, hq]; exact hsum) (by rw [hq]; exact hr)
          (by rw [hs, hq, h1, ea]; omega),
        hs, hq, h1, ea, Option.map_some', hstep]

theorem driverLoop_stuck (gen : Nat → Token) (percent : ℚ) (s : RandomStreamGen)
    (hfin : s.isFinished = false)
    (hnext : RandomStreamGen.nextPortion gen s percent = ([], s)) (fuel : Nat) :
    driverLoop gen percent fuel s = none := by
  induction fuel with
  | zero => rw [driverLoop, hfin]; rfl
  | succ fuel ih => rw [driverLoop, hfin, hnext, if_neg (by simp), ih, Option.map_none']

namespace RandomStreamGen

theorem nextPortion_empty (gen : Nat → Token) {s : RandomStreamGen} {percent : ℚ}
    (h : s.countToGenerate percent = 0) : nextPortion gen s percent = ([], s) := by
  unfold nextPortion
  exact if_pos h

theorem run_append (gen : Nat → Token) (fs gs : List ℚ) :
    ∀ s : RandomStreamGen, run gen s (fs ++ gs) = run gen (run gen s fs) gs := by
  induction fs with
  | nil => intro s; rfl
  | cons f fs ih => intro s; rw [List.cons_append, run, run, ih]

theorem run_replicate_stuck (gen : Nat → Token) {s : RandomStreamGen} {percent : ℚ}
    (h : nextPortion gen s percent = ([], s)) (k : Nat) :
    run gen s (List.replicate k percent) = s := by
  induction k with
  | zero => rfl
  | succ k ih => rw [List.replicate_succ, run, h]; exact ih

end RandomStreamGen

/-- C20 (as stated) fails, in two ways. (1) Rounding: with `N = 3` and the `double`
nearest to 1/3, which is `6004799503160661 / 2^54`, `floor(N * fraction) = 0`,
for which the claim predicts empty batches and a loop that does not terminate;
but the product is rounded to the `double` 1.0, so the first call returns 1
token, `isFinished()` holds after 3 calls and the driver loop terminates after 3
calls. (2) Wrap-around: with `N = 2^64 - 2^32` and fraction `2^-31`,
`r = floor(N * fraction) = 2^33 - 2` and `2^31` calls reach the produced-count
`N`; in the next call the 64-bit sum wraps around to `2^32 - 2`, no clamp
happens, and after `k = 2^31 + 1` calls the produced-count is `2^32 - 2`, not
`min(k * r, N) = N`. -/
theorem C20_counterexample :
    (IsDouble (6004799503160661 / 2 ^ 54) ∧ (6004799503160661 / 2 ^ 54 : ℚ) ≤ 1 ∧
      ⌊((3 : ℕ) : ℚ) * (6004799503160661 / 2 ^ 54)⌋ = 0 ∧
      (RandomStreamGen.nextPortion (fun _ => [57]) (RandomStreamGen.new 3)
        (6004799503160661 / 2 ^ 54)).1.length = 1 ∧
      (RandomStreamGen.run (fun _ => [57]) (RandomStreamGen.new 3)
        (List.replicate 3 (6004799503160661 / 2 ^ 54))).isFinished = true ∧
      driverLoop (fun _ => [57]) (6004799503160661 / 2 ^ 54) 3 (RandomStreamGen.new 3) = some 3) ∧
    ((RandomStreamGen.new 18446744069414584320).request (1 / 2 ^ 31) = 8589934590 ∧
      ⌊((18446744069414584320 : ℕ) : ℚ) * (1 / 2 ^ 31)⌋ = 8589934590 ∧
      (RandomStreamGen.run (fun _ => [57]) (RandomStreamGen.new 18446744069414584320)
        (List.replicate 2147483648 (1 / 2 ^ 31) ++ [1 / 2 ^ 31])).ready_strings_count
          = 4294967294 ∧
      (List.replicate 2147483648 ((1 : ℚ) / 2 ^ 31) ++ [1 / 2 ^ 31]).length = 2147483648 + 1 ∧
      min ((2147483648 + 1) * 8589934590) 18446744069414584320 = 18446744069414584320) := by
  have hc1 : (RandomStreamGen.new 3).requestCast (6004799503160661 / 2 ^ 54) = some 1 :=
    RandomStreamGen.requestCast_rounded (e := -53) (n := 9007199254740992)
      ⟨3, 0, by norm_num, by norm_num, by norm_num, by norm_num [RandomStreamGen.new]⟩
      (ulpExp_eq_of_pos (by norm_num [RandomStreamGen.new]) (by norm_num [RandomStreamGen.new])
        (by norm_num))
      ((roundHalfEven_tie (n := 9007199254740991) (by norm_num [RandomStreamGen.new])).trans
        (by decide))
      (by norm_num) (by norm_num)
  have hr1 := RandomStreamGen.request_of_cast hc1
  have hrun := RandomStreamGen.run_replicate (fun _ => [57]) (6004799503160661 / 2 ^ 54) 3
    (RandomStreamGen.new 3) (by decide) (by rw [hr1]; decide)
  rw [hr1] at hrun
  have hloop := driverLoop_terminates (fun _ => [57]) (6004799503160661 / 2 ^ 54) 3
    (RandomStreamGen.new 3) (by decide) (by rw [hr1]; decide) (by rw [hr1]) (by rw [hr1]; decide)
  rw [hr1] at hloop
  have hr : ∀ p g, (⟨18446744069414584320, p, g⟩ : RandomStreamGen).request (1 / 2 ^ 31) =
      8589934590 := fun p g =>
    RandomStreamGen.request_eq ⟨4294967295, 32, by norm_num, by norm_num, by norm_num, by norm_num⟩
      ⟨8589934590, 0, by norm_num, by norm_num, by norm_num, by norm_num⟩ (by norm_num) (by norm_num)
      (by norm_num)
  have hrun2 := RandomStreamGen.run_replicate (fun _ => [57]) (1 / 2 ^ 31) 2147483648
    (RandomStreamGen.new 18446744069414584320) (by decide)
    (by rw [RandomStreamGen.new, hr])
  rw [RandomStreamGen.new, hr] at hrun2
  have hc := @RandomStreamGen.countToGenerate_wrap
    ⟨18446744069414584320, 18446744069414584320, 18446744069414584320⟩
    (1 / 2 ^ 31) (by rw [hr]; decide)
  rw [hr] at hc
  refine ⟨⟨⟨6004799503160661, -54, by norm_num, by norm_num, by norm_num, by norm_num⟩, by norm_num,
    Int.floor_eq_iff.2 ⟨by norm_num, by norm_num⟩, ?_, ?_, ?_⟩,
    hr 0 0, Int.floor_eq_iff.2 ⟨by norm_num, by norm_num⟩, ?_, ?_, by decide⟩
  · rw [RandomStreamGen.nextPortion_length,
      RandomStreamGen.countToGenerate_wrap (by rw [hr1]; decide), hr1]
  · rw [hrun]; decide
  · exact hloop
  · have e2 : (RandomStreamGen.nextPortion (fun _ => [57])
        ⟨18446744069414584320, 18446744069414584320, 18446744069414584320⟩ (1 / 2 ^ 31)).2 =
        ⟨18446744069414584320, 4294967294, 18446744078004518910⟩ := by
      rw [RandomStreamGen.nextPortion_state, hc]
      decide
    rw [RandomStreamGen.run_append, RandomStreamGen.new, hrun2, RandomStreamGen.run,
      RandomStreamGen.run]
    exact congrArg RandomStreamGen.ready_strings_count e2
  · rw [List.length_append, List.length_replicate, List.length_singleton]

/-- C20 (amended): for every target size `N ≥ 1` and fixed fraction for which the
conversion `static_cast<size_t>(stream_size * percent)` of the `double` product
is defined, with `r` its value (`r = floor(N * fraction)` whenever `N` and
`N * fraction` are values of `double`s, so that nothing is rounded), and such
that `N + r` is below `2^64` (no wrap-around of the 64-bit sum): after `k`
successive `nextPortion(fraction)` calls on a fresh stream source the
produced-count equals `min(k * r, N)`; if `r ≥ 1`, `isFinished()` holds after
`k` calls exactly when `k ≥ ceil(N / r)`, and the driver loop
`while (!stream.isFinished())` terminates after exactly `ceil(N / r)` calls; if
`r = 0`, every call returns an empty batch and leaves the state unchanged,
`isFinished()` never becomes true and the loop does not terminate. The
conversion is defined and `N + r < 2^64` for every `N < 2^63` and fraction in
`[0, 1]`. -/
theorem C20_driver_loop (gen : Nat → Token) (N : Nat) (percent : ℚ) (r : Nat) (h1 : 1 ≤ N)
    (hc : (RandomStreamGen.new N).requestCast percent = some r)
    (hsum : N + r < 2 ^ 64) :
    (IsDouble (N : ℚ) → IsDouble ((N : ℚ) * percent) → r = ⌊(N : ℚ) * percent⌋.toNat) ∧
    (∀ k, (RandomStreamGen.run gen (RandomStreamGen.new N)
      (List.replicate k percent)).ready_strings_count = min (k * r) N) ∧
    (1 ≤ r →
      (∀ k, (RandomStreamGen.run gen (RandomStreamGen.new N)
        (List.replicate k percent)).isFinished = true ↔ (N + r - 1) / r ≤ k) ∧
      ((N + r - 1) / r - 1) * r < N ∧ N ≤ (N + r - 1) / r * r ∧
      ∀ fuel, (N + r - 1) / r ≤ fuel →
        driverLoop gen percent fuel (RandomStreamGen.new N) = some ((N + r - 1) / r)) ∧
    (r = 0 →
      (∀ k, RandomStreamGen.nextPortion gen (RandomStreamGen.run gen (RandomStreamGen.new N)
          (List.replicate k percent)) percent =
            ([], RandomStreamGen.run gen (RandomStreamGen.new N) (List.replicate k percent)) ∧
        (RandomStreamGen.run gen (RandomStreamGen.new N)
          (List.replicate k percent)).isFinished = false) ∧
      ∀ fuel, driverLoop gen percent fuel (RandomStreamGen.new N) = none) ∧
    (N < 2 ^ 63 → 0 ≤ percent → percent ≤ 1 →
      ∃ r0, (RandomStreamGen.new N).requestCast percent = some r0 ∧ N + r0 < 2 ^ 64) := by
  have hr := RandomStreamGen.request_of_cast hc
  have hready : ∀ k, (RandomStreamGen.run gen (RandomStreamGen.new N)
      (List.replicate k percent)).ready_strings_count = min (k * r) N := by
    intro k
    have h := RandomStreamGen.run_replicate_ready gen percent k (RandomStreamGen.new N)
      (Nat.zero_le _) (by rw [hr]; exact hsum)
    rw [hr] at h
    rw [h]
    show min (0 + k * r) N = min (k * r) N
    rw [Nat.zero_add]
  refine ⟨fun hN hP => RandomStreamGen.requestCast_exact_value hN hP hc, hready, ?_, ?_, ?_⟩
  · intro hr1
    have hfin : ∀ k, (RandomStreamGen.run gen (RandomStreamGen.new N)
        (List.replicate k percent)).isFinished = true ↔ (N + r - 1) / r ≤ k := by
      intro k
      unfold RandomStreamGen.isFinished
      rw [decide_eq_true_eq, RandomStreamGen.run_stream_size, hready k,
        RandomStreamGen.ceil_le_iff hr1]
      show N ≤ min (k * r) N ↔ N ≤ k * r
      omega
    have hc1 : N ≤ (N + r - 1) / r * r := (RandomStreamGen.ceil_le_iff hr1 _).1 (le_refl _)
    have hpos : 1 ≤ (N + r - 1) / r := by
      by_contra h
      have hz : (N + r - 1) / r = 0 := Nat.lt_one_iff.mp (Nat.not_le.mp h)
      rw [hz, Nat.zero_mul] at hc1
      omega
    have hc0 : ((N + r - 1) / r - 1) * r < N := by
      by_contra hcon
      have hle := (RandomStreamGen.ceil_le_iff hr1 ((N + r - 1) / r - 1)).2
        (Nat.le_of_not_lt hcon)
      generalize (N + r - 1) / r = c at hle hpos
      omega
    refine ⟨hfin, hc0, hc1, ?_⟩
    intro fuel hfuel
    have h := driverLoop_terminates gen percent fuel (RandomStreamGen.new N) (Nat.zero_le _)
      (by rw [hr]; exact hsum) (by rw [hr]; exact hr1) (by rw [hr]; exact hfuel)
    rw [hr] at h
    exact h
  · intro hr0
    have hcount : (RandomStreamGen.new N).countToGenerate percent = 0 := by
      rw [RandomStreamGen.countToGenerate_eq (Nat.zero_le _) (by show N < 2 ^ 64; omega)
        (by rw [hr]; show 0 + r < 2 ^ 64; omega), hr, hr0]
      exact Nat.zero_min _
    have hnext := RandomStreamGen.nextPortion_empty gen hcount
    have hnf : (RandomStreamGen.new N).isFinished = false := by
      unfold RandomStreamGen.isFinished
      rw [decide_eq_false_iff_not]
      show ¬ (0 ≥ N)
      omega
    refine ⟨fun k => ?_, driverLoop_stuck gen percent _ hnf hnext⟩
    rw [RandomStreamGen.run_replicate_stuck gen hnext k]
    exact ⟨hnext, hnf⟩
  · intro h63 h0 hle1
    obtain ⟨r0, hr0, hle⟩ := (RandomStreamGen.new N).requestCast_defined
      (by show N ≤ 2 ^ 63; omega) h0 hle1
    exact ⟨r0, hr0, by omega⟩

/-- C20 (amended) at `N = 10` and fraction `1/4`: the product 2.5 is exact and
`r = 2`, the produced-count after 2 calls is 4, and the driver loop terminates
after `ceil(10 / 2) = 5` calls. -/
theorem C20_witness :
    (1 ≤ 10 ∧ (RandomStreamGen.new 10).requestCast (1 / 4) = some 2 ∧ 10 + 2 < 2 ^ 64) ∧
    (RandomStreamGen.run (fun _ => [57]) (RandomStreamGen.new 10)
      (List.replicate 2 (1 / 4))).ready_strings_count = min (2 * 2) 10 ∧
    driverLoop (fun _ => [57]) (1 / 4) 5 (RandomStreamGen.new 10) = some ((10 + 2 - 1) / 2) := by
  have hc : (RandomStreamGen.new 10).requestCast (1 / 4) = some 2 :=
    RandomStreamGen.requestCast_eq
      ⟨10, 0, by norm_num, by norm_num, by norm_num, by norm_num [RandomStreamGen.new]⟩
      ⟨5, -1, by norm_num, by norm_num, by norm_num, by norm_num [RandomStreamGen.new]⟩
      (by norm_num [RandomStreamGen.new]) (by norm_num [RandomStreamGen.new]) (by norm_num)
  have h := C20_driver_loop (fun _ => [57]) 10 (1 / 4) 2 (by norm_num) hc (by norm_num)
  exact ⟨⟨by norm_num, hc, by norm_num⟩, h.2.1 2,
    (h.2.2.1 (by norm_num)).2.2.2 5 (by norm_num)⟩

end HLL
